import Mathlib

/-!
Verification of the task model and parse/mutate engine of
`obsidian-tasks-tui` (Go sources `parser.go`, `ui.go`, `config.go`).

The Go code is shallowly embedded: each regular expression of `parser.go`
(`taskRe`, `tagRe`, `dueDateRe`, `doneDateRe`) is implemented as an
executable character-list scanner with the exact leftmost, greedy,
non-overlapping semantics of Go's RE2 engine on these patterns, and every
pure fragment of the program (task parsing, section-scoped file scanning,
tag filtering, categorization, line-level mutation) becomes a Lean
function over explicit line lists and calendar dates.

`time.Time` values only ever carry whole calendar days here (all parsed
times are midnight UTC and every comparison first truncates to a day), so
a date is a `(year, month, day)` triple; Go's zero `time.Time` is
0001-01-01, hence `Date.zero = ⟨1, 1, 1⟩` and `IsZero` is equality with
it.
-/

namespace ObsidianTasks

/-- Go RE2 character class `\s`, i.e. `[\t\n\f\r ]`. -/
def goReSpace (c : Char) : Bool :=
  decide (c = ' ' ∨ c = '\t' ∨ c = '\n' ∨ c.toNat = 0x0c ∨ c = '\r')

/-- Go `unicode.IsSpace` (used by `strings.TrimSpace`): the White_Space
code points. -/
def goUnicodeSpace (c : Char) : Bool :=
  decide (c = ' ' ∨ c = '\t' ∨ c = '\n' ∨ c.toNat = 0x0b ∨ c.toNat = 0x0c ∨
    c = '\r' ∨ c.toNat = 0x85 ∨ c.toNat = 0xa0 ∨ c.toNat = 0x1680 ∨
    (0x2000 ≤ c.toNat ∧ c.toNat ≤ 0x200a) ∨ c.toNat = 0x2028 ∨
    c.toNat = 0x2029 ∨ c.toNat = 0x202f ∨ c.toNat = 0x205f ∨
    c.toNat = 0x3000)

/-- Go RE2 character class `\w`, i.e. `[0-9A-Za-z_]`. -/
def goWordChar (c : Char) : Bool :=
  decide (('0' ≤ c ∧ c ≤ '9') ∨ ('A' ≤ c ∧ c ≤ 'Z') ∨
    ('a' ≤ c ∧ c ≤ 'z') ∨ c = '_')

/-- ASCII digit test, Go RE2 `\d`. -/
def goDigit (c : Char) : Bool := decide ('0' ≤ c ∧ c ≤ '9')

/-- The `📅` rune heading `dueDateRe`. -/
def calChar : Char := '📅'

/-- The `✅` rune heading `doneDateRe`. -/
def checkChar : Char := '✅'

/-- Value of an ASCII digit character (0 for non-digits). -/
def digitVal (c : Char) : Nat :=
  match c with
  | '0' => 0 | '1' => 1 | '2' => 2 | '3' => 3 | '4' => 4
  | '5' => 5 | '6' => 6 | '7' => 7 | '8' => 8 | '9' => 9
  | _ => 0

/-- The ASCII digit character for a value below 10. -/
def digitChar (n : Nat) : Char :=
  match n with
  | 0 => '0' | 1 => '1' | 2 => '2' | 3 => '3' | 4 => '4'
  | 5 => '5' | 6 => '6' | 7 => '7' | 8 => '8' | _ => '9'

/-- A calendar date, the day-resolution content of a Go `time.Time` in
this program. -/
structure Date where
  year : Nat
  month : Nat
  day : Nat
deriving DecidableEq, Repr, Inhabited

/-- Go's zero `time.Time` is January 1, year 1; `IsZero` compares with
it. -/
def Date.zero : Date := ⟨1, 1, 1⟩

/-- `time.Time.IsZero` at day resolution. -/
def Date.isZero (d : Date) : Bool := d = Date.zero

/-- `time.Time.Before` on midnight dates: calendar order. -/
def Date.before (a b : Date) : Bool :=
  decide (a.year < b.year ∨ (a.year = b.year ∧
    (a.month < b.month ∨ (a.month = b.month ∧ a.day < b.day))))

/-- `time.Time.After` on midnight dates. -/
def Date.after (a b : Date) : Bool := Date.before b a

/-- Gregorian leap-year rule, as in Go's `time` package. -/
def isLeapYear (y : Nat) : Bool :=
  decide (y % 4 = 0 ∧ (y % 100 ≠ 0 ∨ y % 400 = 0))

/-- Days in a month, as validated by Go's `time.Parse`. -/
def daysInMonth (y m : Nat) : Nat :=
  if m = 2 then (if isLeapYear y then 29 else 28)
  else if m = 4 ∨ m = 6 ∨ m = 9 ∨ m = 11 then 30
  else 31

/-- The range checks `time.Parse("2006-01-02", ·)` performs on an
all-digit `YYYY-MM-DD` candidate. -/
def validYMD (d : Date) : Bool :=
  decide (1 ≤ d.month ∧ d.month ≤ 12 ∧ 1 ≤ d.day ∧
    d.day ≤ daysInMonth d.year d.month)

/-- `time.Parse("2006-01-02", s)` on the ten characters captured by
`dueDateRe`/`doneDateRe` (shape `\d{4}-\d{2}-\d{2}`): recompute the
digits defensively and apply the calendar range checks. -/
def goParseDate (cs : List Char) : Option Date :=
  match cs with
  | [y1, y2, y3, y4, '-', m1, m2, '-', d1, d2] =>
    if goDigit y1 ∧ goDigit y2 ∧ goDigit y3 ∧ goDigit y4 ∧
       goDigit m1 ∧ goDigit m2 ∧ goDigit d1 ∧ goDigit d2 then
      let dt : Date :=
        ⟨1000 * digitVal y1 + 100 * digitVal y2 + 10 * digitVal y3 + digitVal y4,
         10 * digitVal m1 + digitVal m2,
         10 * digitVal d1 + digitVal d2⟩
      if validYMD dt then some dt else none
    else none
  | _ => none

/-- The ten characters `time.Time.Format("2006-01-02")` emits for a date
with a four-digit year. -/
def fmtDateChars (d : Date) : List Char :=
  [digitChar (d.year / 1000 % 10), digitChar (d.year / 100 % 10),
   digitChar (d.year / 10 % 10), digitChar (d.year % 10), '-',
   digitChar (d.month / 10 % 10), digitChar (d.month % 10), '-',
   digitChar (d.day / 10 % 10), digitChar (d.day % 10)]

/-- `time.Time.Format("2006-01-02")` as a string (years in this program
always have four digits). -/
def fmtDate (d : Date) : String := String.mk (fmtDateChars d)

/-- The task record of `parser.go` (`type Task struct`). `LineNumber` is
a Go `int`, kept as `Int` so stale locators below 1 are representable. -/
structure Task where
  description : String
  done : Bool
  tags : List String
  dueDate : Date
  completionDate : Date
  filePath : String
  lineNumber : Int
  rawLine : String
deriving DecidableEq, Repr, Inhabited

/-- Greedy munch of `(?:/[\w]+)*` after the leading word run of a tag
match: each iteration consumes a `/` and a nonempty word run, stopping
when the next characters do not continue the pattern. Fuel-driven (the
fuel only ever needs to cover the input length). -/
def munchSegsAux : Nat → List Char → List Char × List Char
  | 0, cs => ([], cs)
  | _ + 1, [] => ([], [])
  | fuel + 1, c :: rest =>
    if c = '/' then
      match List.span goWordChar rest with
      | ([], _) => ([], c :: rest)
      | (w, r) =>
        let p := munchSegsAux fuel r
        (c :: (w ++ p.1), p.2)
    else ([], c :: rest)

def munchSegs (cs : List Char) : List Char × List Char :=
  munchSegsAux cs.length cs

/-- `tagRe.FindAllString(rest, -1)`: the leftmost, greedy,
non-overlapping occurrences of `#[\w]+(?:/[\w]+)*`, left to right,
duplicates preserved. -/
def findTagsAux : Nat → List Char → List String
  | 0, _ => []
  | _ + 1, [] => []
  | fuel + 1, c :: rest =>
    if c = '#' then
      match List.span goWordChar rest with
      | ([], _) => findTagsAux fuel rest
      | (w, r) =>
        let p := munchSegs r
        String.mk ('#' :: (w ++ p.1)) :: findTagsAux fuel p.2
    else findTagsAux fuel rest

def findTags (cs : List Char) : List String := findTagsAux cs.length cs

/-- `tagRe.ReplaceAllString(s, "")`: same scan as `findTags`, keeping the
non-matched characters. -/
def removeTagsAux : Nat → List Char → List Char
  | 0, cs => cs
  | _ + 1, [] => []
  | fuel + 1, c :: rest =>
    if c = '#' then
      match List.span goWordChar rest with
      | ([], _) => c :: removeTagsAux fuel rest
      | (_, r) => removeTagsAux fuel (munchSegs r).2
    else c :: removeTagsAux fuel rest

def removeTags (cs : List Char) : List Char := removeTagsAux cs.length cs

/-- Attempt the `\d{4}-\d{2}-\d{2}` tail of a marker pattern at the head
of `cs`; returns the ten matched characters (RE2 matches exactly four,
two and two digits here, with literal dashes between). -/
def tryDateShape (cs : List Char) : Option (List Char) :=
  match cs with
  | y1 :: y2 :: y3 :: y4 :: '-' :: m1 :: m2 :: '-' :: d1 :: d2 :: _ =>
    if goDigit y1 ∧ goDigit y2 ∧ goDigit y3 ∧ goDigit y4 ∧ goDigit m1 ∧
       goDigit m2 ∧ goDigit d1 ∧ goDigit d2 then
      some [y1, y2, y3, y4, '-', m1, m2, '-', d1, d2]
    else none
  | _ => none

/-- `re.FindStringSubmatch(s)[1]` for `📅\s*(\d{4}-\d{2}-\d{2})` (and the
`✅` analogue): the leftmost position where the marker rune is followed
by a whitespace run and a date shape; yields the captured ten
characters. -/
def findMarker (mk : Char) : List Char → Option (List Char)
  | [] => none
  | c :: rest =>
    if c = mk then
      match tryDateShape (rest.dropWhile goReSpace) with
      | some ds => some ds
      | none => findMarker mk rest
    else findMarker mk rest

/-- `re.ReplaceAllString(s, "")` for a marker pattern: drop every
leftmost non-overlapping match of `mk` + `\s*` + date shape. -/
def removeMarkerAux (mk : Char) : Nat → List Char → List Char
  | 0, cs => cs
  | _ + 1, [] => []
  | fuel + 1, c :: rest =>
    if c = mk then
      match tryDateShape (rest.dropWhile goReSpace) with
      | some _ => removeMarkerAux mk fuel ((rest.dropWhile goReSpace).drop 10)
      | none => c :: removeMarkerAux mk fuel rest
    else c :: removeMarkerAux mk fuel rest

def removeMarker (mk : Char) (cs : List Char) : List Char :=
  removeMarkerAux mk cs.length cs

/-- The date value `ParseTask` derives from a marker rune: the captured
`YYYY-MM-DD` of the first match parsed by `time.Parse`, the zero date
when there is no match or the candidate fails validation. -/
def markerDate (mk : Char) (rest : List Char) : Date :=
  match findMarker mk rest with
  | some ds =>
    match goParseDate ds with
    | some d => d
    | none => Date.zero
  | none => Date.zero

def trimLeftUni (cs : List Char) : List Char := cs.dropWhile goUnicodeSpace

def trimRightUni (cs : List Char) : List Char :=
  (cs.reverse.dropWhile goUnicodeSpace).reverse

/-- `strings.TrimSpace`. -/
def goTrimSpace (cs : List Char) : List Char := trimRightUni (trimLeftUni cs)

def goTrimStr (s : String) : String := String.mk (goTrimSpace s.data)

/-- `taskRe.FindStringSubmatch`: match `^(\s*)-\s\[([ xX])\]\s*(.*)$`
against a line; yields the checkbox state (`m[2] == "x" || m[2] == "X"`)
and the rest `m[3]`. RE2's `.` does not cross a newline in `(.*)$`, so
the match fails if a newline survives past the `\s*` run. -/
def goParseCheckbox (cs : List Char) : Option (Bool × List Char) :=
  match cs.dropWhile goReSpace with
  | '-' :: c :: '[' :: st :: ']' :: tail =>
    if goReSpace c ∧ (st = ' ' ∨ st = 'x' ∨ st = 'X') then
      let rest := tail.dropWhile goReSpace
      if rest.contains '\n' then none
      else some (decide (st = 'x' ∨ st = 'X'), rest)
    else none
  | _ => none

/-- `ParseTask` (parser.go): parse one markdown line into a task.
`noteDate` is the fallback due date from the daily note's filename. -/
def parseTask (line : String) (filePath : String) (lineNumber : Int)
    (noteDate : Date) : Option Task :=
  match goParseCheckbox line.data with
  | none => none
  | some (done, rest) =>
    let tags := findTags rest
    let dueExplicit : Date :=
      match findMarker calChar rest with
      | some ds =>
        match goParseDate ds with
        | some d => d
        | none => Date.zero
      | none => Date.zero
    let dueDate := if dueExplicit.isZero then noteDate else dueExplicit
    let completionDate : Date :=
      match findMarker checkChar rest with
      | some ds =>
        match goParseDate ds with
        | some d => d
        | none => Date.zero
      | none => Date.zero
    let desc :=
      goTrimSpace (removeMarker checkChar (removeMarker calChar (removeTags rest)))
    some { description := String.mk desc, done := done, tags := tags,
           dueDate := dueDate, completionDate := completionDate,
           filePath := filePath, lineNumber := lineNumber, rawLine := line }

/-- The edit-path re-encoding of a task (ui.go `handleInputMode`, mode
`modeEditTask`, with the input value equal to the record's description):
`- ` + `[x] `/`[ ] ` + description + a space-prefixed tag each, in
order + due-date marker + completion-date marker. -/
def encodeTask (t : Task) : String :=
  (if t.done then "- [x] " else "- [ ] ") ++ t.description ++
  String.join (t.tags.map (fun tag => " " ++ tag)) ++
  (if t.dueDate.isZero then "" else " 📅 " ++ fmtDate t.dueDate) ++
  (if t.completionDate.isZero then "" else " ✅ " ++ fmtDate t.completionDate)

/-- The leading `'#'` run of the section heading (`sectionLevel` in
`ParseFile`). -/
def sectionLevel (heading : String) : List Char :=
  heading.data.takeWhile (fun c => c == '#')

/-- `strings.HasPrefix`. -/
def goStartsWith (s p : List Char) : Bool := List.isPrefixOf p s

/-- The scope-closing test of `ParseFile`: the trimmed line starts with
`sectionLevel + " "` but not with `sectionLevel + "#"`. -/
def closesLine (heading trimmed : String) : Bool :=
  goStartsWith trimmed.data (sectionLevel heading ++ [' ']) &&
  !goStartsWith trimmed.data (sectionLevel heading ++ ['#'])

/-- The scanning loop of `ParseFile` over the file's lines, carrying the
1-based line counter and the `inSection` flag. -/
def parseFileGo (filePath heading : String) (noteDate : Date) :
    List String → Int → Bool → List Task
  | [], _, _ => []
  | line :: rest, n, inSec =>
    let t := goTrimStr line
    if heading ≠ "" ∧ t = heading then
      parseFileGo filePath heading noteDate rest (n + 1) true
    else if heading ≠ "" ∧ inSec = true ∧ closesLine heading t then
      parseFileGo filePath heading noteDate rest (n + 1) false
    else if inSec then
      match parseTask line filePath n noteDate with
      | some tk => tk :: parseFileGo filePath heading noteDate rest (n + 1) inSec
      | none => parseFileGo filePath heading noteDate rest (n + 1) inSec
    else parseFileGo filePath heading noteDate rest (n + 1) inSec

/-- `ParseFile` on the file's line list (the `os.Open`/`bufio.Scanner`
I/O stripped): scanning starts out of section unless the heading is
empty. -/
def parseFileLines (filePath heading : String) (noteDate : Date)
    (lines : List String) : List Task :=
  parseFileGo filePath heading noteDate lines 1 (heading == "")

/-- Is one tag excluded? (`ScanDailyNotes` inner loop): the tag equals an
excluded tag or extends it across a `/` boundary. -/
def tagExcluded (excl : List String) (tag : String) : Bool :=
  excl.any (fun ex => tag == ex || goStartsWith tag.data (ex.data ++ ['/']))

/-- The post-scan record filter of `ScanDailyNotes`: keep a task iff it
has at least one tag and none of its tags is excluded. -/
def keepTask (excl : List String) (t : Task) : Bool :=
  !t.tags.isEmpty && !t.tags.any (tagExcluded excl)

/-- `ScanDailyNotes`'s per-file filtering pass over the scanned tasks. -/
def scanFilter (excl : List String) (ts : List Task) : List Task :=
  ts.filter (keepTask excl)

/-- `strings.Contains`. -/
def containsSub (s sub : List Char) : Bool :=
  match s with
  | [] => sub.isEmpty
  | c :: rest => List.isPrefixOf sub (c :: rest) || containsSub rest sub

/-- `strings.ToLower` (ASCII case mapping; Go also lowers non-ASCII
letters, which the text filter of this program is not specified over). -/
def goToLower (s : String) : List Char := s.data.map Char.toLower

/-- `matchesFilter` (ui.go): empty filter, or case-insensitive substring
of the description or of some tag. -/
def matchesFilter (filt : String) (t : Task) : Bool :=
  filt == "" ||
  containsSub (goToLower t.description) (goToLower filt) ||
  t.tags.any (fun tag => containsSub (goToLower tag) (goToLower filt))

/-- Group sort key: mirrors the byte order of the `"2006-01-02"` string
map keys of `buildViews` (identical to it for the four-digit years this
program produces). -/
def dateKey (d : Date) : Nat := d.year * 10000 + d.month * 100 + d.day

/-- `DateGroup` (ui.go): the key date and the member indices into the
task list, in insertion order. (The display label, a pure format of the
date, is omitted.) -/
structure DateGroup where
  date : Date
  tasks : List Nat
deriving DecidableEq, Repr

/-- `m[key] = append(m[key], i)` on a grouping map. Formatting a date is
injective, so the string key is identified with the date; Go's random
map iteration order is normalized away by the key sort below. -/
def addToGroup (d : Date) (i : Nat) : List DateGroup → List DateGroup
  | [] => [⟨d, [i]⟩]
  | g :: gs =>
    if g.date = d then ⟨g.date, g.tasks ++ [i]⟩ :: gs
    else g :: addToGroup d i gs

def insertAsc (g : DateGroup) : List DateGroup → List DateGroup
  | [] => [g]
  | h :: t =>
    if dateKey g.date ≤ dateKey h.date then g :: h :: t
    else h :: insertAsc g t

/-- The ascending key ordering `buildViews` establishes on
`upcomingSorted` (its exchange-sort of the distinct map keys). -/
def sortGroupsAsc : List DateGroup → List DateGroup
  | [] => []
  | g :: gs => insertAsc g (sortGroupsAsc gs)

def insertDesc (g : DateGroup) : List DateGroup → List DateGroup
  | [] => [g]
  | h :: t =>
    if dateKey h.date ≤ dateKey g.date then g :: h :: t
    else h :: insertDesc g t

/-- The descending key ordering `buildViews` establishes on
`logbookSorted`. -/
def sortGroupsDesc : List DateGroup → List DateGroup
  | [] => []
  | g :: gs => insertDesc g (sortGroupsDesc gs)

/-- The four accumulators of `buildViews`'s classification loop. -/
structure Classified where
  todayUndone : List Nat
  overdueUndone : List Nat
  upcomingMap : List DateGroup
  logbookMap : List DateGroup
deriving Repr

/-- One iteration of the classification loop of `buildViews` (index `i`
into `m.allTasks`): filter test, then done → logbook (completion date,
falling back to the due date when zero), else compare the due date with
`today`. -/
def classifyStep (today : Date) (filt : String) (r : Classified)
    (p : Nat × Task) : Classified :=
  let i := p.1
  let t := p.2
  if !matchesFilter filt t then r
  else if t.done then
    let compDate :=
      if t.completionDate.isZero then t.dueDate else t.completionDate
    { r with logbookMap := addToGroup compDate i r.logbookMap }
  else if t.dueDate.after today then
    { r with upcomingMap := addToGroup t.dueDate i r.upcomingMap }
  else if t.dueDate = today then
    { r with todayUndone := r.todayUndone ++ [i] }
  else
    { r with overdueUndone := r.overdueUndone ++ [i] }

/-- The due date the sort compares at an index (`m.allTasks[idx].DueDate`;
indices are in range whenever they come from the classification). -/
def dueOf (tasks : List Task) (i : Nat) : Date := (tasks.getD i default).dueDate

/-- One full pass of the inner `j` loop of `sortByDueDate` with `x` the
current element at position `i`: swap whenever a later element's due
date is strictly `Before` the element currently at `i`. Returns the
final element at `i` and the later positions' contents in order. -/
def innerPass (tasks : List Task) (x : Nat) : List Nat → Nat × List Nat
  | [] => (x, [])
  | y :: ys =>
    if (dueOf tasks y).before (dueOf tasks x) then
      let p := innerPass tasks y ys
      (p.1, x :: p.2)
    else
      let p := innerPass tasks x ys
      (p.1, y :: p.2)

def exchangeSortAux (tasks : List Task) : Nat → List Nat → List Nat
  | 0, l => l
  | _ + 1, [] => []
  | fuel + 1, x :: xs =>
    let p := innerPass tasks x xs
    p.1 :: exchangeSortAux tasks fuel p.2

/-- `sortByDueDate` (buildViews): the in-place double loop over the index
slice — an exchange sort by ascending due date (not a stable sort). -/
def sortByDueDate (tasks : List Task) (idxs : List Nat) : List Nat :=
  exchangeSortAux tasks idxs.length idxs

/-- The grouped views `buildViews` computes. `todayTasks` is the today
bucket followed by the sorted overdue bucket, `overdueStart` its split
point, exactly as in the Go model state. -/
structure Views where
  todayUndone : List Nat
  overdueSorted : List Nat
  todayTasks : List Nat
  overdueStart : Nat
  upcomingGroups : List DateGroup
  logbookGroups : List DateGroup
deriving Repr

/-- `buildViews` (ui.go): classify every filtered task by day-truncated
date comparison with `today`, sort the overdue bucket by due date, and
order the upcoming/logbook groups by their date keys. -/
def buildViews (tasks : List Task) (today : Date) (filt : String) : Views :=
  let c := (tasks.enum).foldl (classifyStep today filt) ⟨[], [], [], []⟩
  let ov := sortByDueDate tasks c.overdueUndone
  { todayUndone := c.todayUndone
    overdueSorted := ov
    todayTasks := c.todayUndone ++ ov
    overdueStart := c.todayUndone.length
    upcomingGroups := sortGroupsAsc c.upcomingMap
    logbookGroups := sortGroupsDesc c.logbookMap }

/-- `strings.Replace(s, old, new, 1)`: replace the first occurrence. -/
def replaceFirst (s pat rep : List Char) : List Char :=
  match s with
  | [] => []
  | c :: rest =>
    if List.isPrefixOf pat (c :: rest) then rep ++ (c :: rest).drop pat.length
    else c :: replaceFirst rest pat rep

/-- `strings.TrimRight(s, " ")`. -/
def trimRightSpaces (cs : List Char) : List Char :=
  (cs.reverse.dropWhile (fun c => c == ' ')).reverse

/-- `ToggleDone` (parser.go) on the file's current line list; `today` is
the day of the two `time.Now()` calls. Returns the rewritten lines and
the updated in-memory record; `none` is the stale-locator error, in
which case neither the lines nor the record change. -/
def toggleDone (lines : List String) (t : Task) (today : Date) :
    Option (List String × Task) :=
  let idx : Int := t.lineNumber - 1
  if idx < 0 ∨ (lines.length : Int) ≤ idx then none
  else
    let i := idx.toNat
    let line := (lines.getD i "").data
    if t.done then
      let l1 := replaceFirst line "[x]".data "[ ]".data
      let l2 := replaceFirst l1 "[X]".data "[ ]".data
      let l3 := trimRightSpaces (removeMarker checkChar l2)
      some (lines.set i (String.mk l3),
            { t with done := false, completionDate := Date.zero,
                     rawLine := String.mk l3 })
    else
      let l1 := replaceFirst line "[ ]".data "[x]".data
      let l2 := l1 ++ (" ✅ ".data ++ fmtDateChars today)
      some (lines.set i (String.mk l2),
            { t with done := true, completionDate := today,
                     rawLine := String.mk l2 })

/-- `DeleteTask` (parser.go): `append(lines[:idx], lines[idx+1:]...)`,
or the stale-locator error. -/
def deleteTaskLines (lines : List String) (t : Task) : Option (List String) :=
  let idx : Int := t.lineNumber - 1
  if idx < 0 ∨ (lines.length : Int) ≤ idx then none
  else some (lines.take idx.toNat ++ lines.drop (idx.toNat + 1))

/-- `UpdateTaskLine` (parser.go): unconditional single-line replace, or
the stale-locator error. -/
def updateTaskLines (lines : List String) (t : Task) (newLine : String) :
    Option (List String × Task) :=
  let idx : Int := t.lineNumber - 1
  if idx < 0 ∨ (lines.length : Int) ≤ idx then none
  else some (lines.set idx.toNat newLine, { t with rawLine := newLine })

/-- Continuation of a well-formed tag body after at least one word
character: word characters and `/`-separated nonempty word runs, never
ending in `/`. -/
def wfTagAux : List Char → Bool
  | [] => true
  | [c] => goWordChar c
  | c :: d :: rest =>
    if goWordChar c then wfTagAux (d :: rest)
    else if c = '/' then goWordChar d && wfTagAux rest
    else false

/-- A well-formed tag token: the full-match language of `tagRe`. -/
def wfTag (cs : List Char) : Bool :=
  match cs with
  | c :: d :: rest => (c == '#') && (goWordChar d && wfTagAux rest)
  | _ => false

/-- A well-formed sequence of `(?:/[\w]+)*` segments (the suffix of a tag
body after its leading word run). -/
def wfSegs (cs : List Char) : Bool :=
  match cs with
  | [] => true
  | c :: d :: rest => (c == '/') && (goWordChar d && wfTagAux rest)
  | _ => false

/-- The character after a tag token must not extend the match: end of
input, or a head that is neither a word character nor `/`. -/
def tagBoundary (s : List Char) : Prop :=
  match s with
  | [] => True
  | c :: _ => goWordChar c = false ∧ c ≠ '/'

/-- One line's effect on the `inSection` flag of `ParseFile` (for a
non-empty heading): a line trimming to the heading turns it on, a
closing line (an exactly-same-depth heading that is not the section
heading itself) turns it off, every other line leaves it unchanged. -/
def scopeStep (heading : String) (acc : Bool) (l : String) : Bool :=
  let t := goTrimStr l
  if t = heading then true
  else if closesLine heading t then false
  else acc

/-- The `inSection` flag of `ParseFile` after processing a list of lines
starting from flag `b`. -/
def scopeAfter (heading : String) (b : Bool) (ls : List String) : Bool :=
  ls.foldl (scopeStep heading) b

/-- Concrete records for counterexamples: three tagged, undone tasks;
the first two share a due date, the third is due earlier. -/
def exTaskA : Task := ⟨"a", false, ["#w"], ⟨2026, 2, 27⟩, Date.zero, "f", 1, ""⟩

def exTaskB : Task := ⟨"b", false, ["#w"], ⟨2026, 2, 27⟩, Date.zero, "f", 2, ""⟩

def exTaskC : Task := ⟨"c", false, ["#w"], ⟨2026, 2, 26⟩, Date.zero, "f", 3, ""⟩

/-- A done record carrying a completion date, used against the
double-toggle claim. -/
def exTaskDone : Task :=
  ⟨"a", true, ["#w"], ⟨2026, 2, 27⟩, ⟨2026, 1, 1⟩, "f", 1,
   "- [x] a #w ✅ 2026-01-01"⟩

/-- An undone record with no completion date, addressing line 1. -/
def exTaskUndone : Task :=
  ⟨"a", false, ["#w"], ⟨2026, 2, 27⟩, Date.zero, "f", 1, "- [ ] a #w"⟩

/-- A concrete parsed task used to exercise the round-trip theorem. -/
def exTaskRT : Task :=
  ⟨"pay bill", true, ["#work/a"], ⟨2026, 3, 1⟩, ⟨2026, 3, 2⟩, "f", 3,
   "- [x] pay bill #work/a 📅 2026-03-01 ✅ 2026-03-02"⟩

theorem before_irrefl (a : Date) : Date.before a a = false := by
  simp [Date.before]

theorem before_trans {a b c : Date} (h1 : Date.before a b = true)
    (h2 : Date.before b c = true) : Date.before a c = true := by
  simp only [Date.before, decide_eq_true_eq] at *
  omega

theorem before_false_true {a b c : Date} (h1 : Date.before b a = false)
    (h2 : Date.before b c = true) : Date.before a c = true := by
  simp only [Date.before, decide_eq_true_eq, decide_eq_false_iff_not] at *
  omega

theorem innerPass_length (tasks : List Task) (x : Nat) (l : List Nat) :
    (innerPass tasks x l).2.length = l.length := by
  induction l generalizing x with
  | nil => simp [innerPass]
  | cons y ys ih =>
    simp only [innerPass]
    by_cases h : (dueOf tasks y).before (dueOf tasks x) = true
    · simp [h, ih]
    · simp only [Bool.not_eq_true] at h
      simp [h, ih]

theorem innerPass_perm (tasks : List Task) (x : Nat) (l : List Nat) :
    ((innerPass tasks x l).1 :: (innerPass tasks x l).2).Perm (x :: l) := by
  induction l generalizing x with
  | nil => simp [innerPass]
  | cons y ys ih =>
    simp only [innerPass]
    by_cases h : (dueOf tasks y).before (dueOf tasks x) = true
    · simp only [if_pos h]
      exact (List.Perm.swap x _ _).trans ((ih y).cons x)
    · simp only [Bool.not_eq_true] at h
      simp only [h, Bool.false_eq_true, if_false]
      exact (List.Perm.swap y _ _).trans (((ih x).cons y).trans
        (List.Perm.swap x y ys))

theorem innerPass_min (tasks : List Task) (x : Nat) (l : List Nat) :
    ∀ z ∈ x :: l,
      (dueOf tasks z).before (dueOf tasks (innerPass tasks x l).1) = false := by
  induction l generalizing x with
  | nil =>
    intro z hz
    simp only [List.mem_singleton] at hz
    subst hz
    simp [innerPass, before_irrefl]
  | cons y ys ih =>
    intro z hz
    simp only [innerPass]
    by_cases h : (dueOf tasks y).before (dueOf tasks x) = true
    · simp only [if_pos h]
      rcases List.mem_cons.1 hz with hzx | hz2
      · rw [hzx]
        have hy := ih y y (List.mem_cons_self _ _)
        by_contra hc
        simp only [Bool.not_eq_false] at hc
        exact absurd (before_trans h hc) (by simp [hy])
      · rcases List.mem_cons.1 hz2 with hzy | hz3
        · rw [hzy]; exact ih y y (List.mem_cons_self _ _)
        · exact ih y z (List.mem_cons_of_mem _ hz3)
    · simp only [Bool.not_eq_true] at h
      simp only [h, Bool.false_eq_true, if_false]
      rcases List.mem_cons.1 hz with hzx | hz2
      · rw [hzx]; exact ih x x (List.mem_cons_self _ _)
      · rcases List.mem_cons.1 hz2 with hzy | hz3
        · rw [hzy]
          have hx := ih x x (List.mem_cons_self _ _)
          by_contra hc
          simp only [Bool.not_eq_false] at hc
          exact absurd (before_false_true h hc) (by simp [hx])
        · exact ih x z (List.mem_cons_of_mem _ hz3)

theorem exchangeSortAux_perm (tasks : List Task) (fuel : Nat) :
    ∀ l, (exchangeSortAux tasks fuel l).Perm l := by
  induction fuel with
  | zero => intro l; simp [exchangeSortAux]
  | succ f ih =>
    intro l
    cases l with
    | nil => simp [exchangeSortAux]
    | cons x xs =>
      simp only [exchangeSortAux]
      exact ((ih _).cons _).trans (innerPass_perm tasks x xs)

theorem exchangeSortAux_sorted (tasks : List Task) (fuel : Nat) :
    ∀ l, l.length ≤ fuel →
      (exchangeSortAux tasks fuel l).Pairwise
        (fun i j => (dueOf tasks j).before (dueOf tasks i) = false) := by
  induction fuel with
  | zero =>
    intro l hl
    have : l = [] := List.length_eq_zero.1 (Nat.le_zero.1 hl)
    subst this
    simp [exchangeSortAux]
  | succ f ih =>
    intro l hl
    cases l with
    | nil => simp [exchangeSortAux]
    | cons x xs =>
      simp only [exchangeSortAux]
      refine List.Pairwise.cons ?_ (ih _ ?_)
      · intro z hz
        have hz2 : z ∈ (innerPass tasks x xs).2 :=
          (exchangeSortAux_perm tasks f _).mem_iff.1 hz
        have hz3 : z ∈ (innerPass tasks x xs).1 :: (innerPass tasks x xs).2 :=
          List.mem_cons_of_mem _ hz2
        exact innerPass_min tasks x xs z ((innerPass_perm tasks x xs).mem_iff.1 hz3)
      · rw [innerPass_length]
        simpa using hl

theorem tagExcluded_iff (excl : List String) (a : String) :
    tagExcluded excl a = true ↔
      ∃ e ∈ excl, a = e ∨ (e ++ "/").data <+: a.data := by
  unfold tagExcluded goStartsWith
  rw [List.any_eq_true]
  constructor
  · rintro ⟨e, he, hb⟩
    rw [Bool.or_eq_true, beq_iff_eq] at hb
    refine ⟨e, he, ?_⟩
    rcases hb with h1 | h2
    · exact Or.inl h1
    · refine Or.inr ?_
      rw [String.data_append]
      exact (List.isPrefixOf_iff_prefix).1 h2
  · rintro ⟨e, he, hcase⟩
    refine ⟨e, he, ?_⟩
    rw [Bool.or_eq_true, beq_iff_eq]
    rcases hcase with h1 | h2
    · exact Or.inl h1
    · refine Or.inr ((List.isPrefixOf_iff_prefix).2 ?_)
      rw [String.data_append] at h2
      exact h2

theorem keepTask_iff (excl : List String) (t : Task) :
    keepTask excl t = true ↔
      t.tags ≠ [] ∧
        ∀ a ∈ t.tags, ¬∃ e ∈ excl, a = e ∨ (e ++ "/").data <+: a.data := by
  unfold keepTask
  rw [Bool.and_eq_true, Bool.not_eq_true', Bool.not_eq_true',
    List.isEmpty_eq_false, List.any_eq_false]
  constructor
  · rintro ⟨h1, h2⟩
    refine ⟨h1, ?_⟩
    intro a ha hex
    exact (h2 a ha) ((tagExcluded_iff excl a).2 hex)
  · rintro ⟨h1, h2⟩
    refine ⟨h1, ?_⟩
    intro a ha hc
    exact h2 a ha ((tagExcluded_iff excl a).1 hc)

/-- C7 counterexample: on three overdue records where the first two share
a due date and the third is due earlier, `sortByDueDate` returns the
index order `[2, 1, 0]`: the two equal-due records come out in inverted
relative order (index 1 strictly ahead of index 0), so the tie-break is
not stable, refuting the claim's stability at this concrete input. -/
theorem c7_counterexample :
    exTaskA.dueDate = exTaskB.dueDate ∧
    exTaskC.dueDate.before exTaskA.dueDate = true ∧
    sortByDueDate [exTaskA, exTaskB, exTaskC] [0, 1, 2] = [2, 1, 0] ∧
    List.indexOf 1 (sortByDueDate [exTaskA, exTaskB, exTaskC] [0, 1, 2]) <
      List.indexOf 0 (sortByDueDate [exTaskA, exTaskB, exTaskC] [0, 1, 2]) := by
  decide

/-- C7 amended: the overdue bucket's `sortByDueDate` pass returns a
permutation of its input that is ascending by due date (no later element
is strictly `Before` an earlier one); the exchange sort is however not
stable, so records with equal due dates need not keep their original
scan order. -/
theorem c7_overdue_sort_ascending (tasks : List Task) (idxs : List Nat) :
    (sortByDueDate tasks idxs).Perm idxs ∧
    (sortByDueDate tasks idxs).Pairwise
      (fun i j => (dueOf tasks j).before (dueOf tasks i) = false) :=
  ⟨exchangeSortAux_perm tasks idxs.length idxs,
   exchangeSortAux_sorted tasks idxs.length idxs le_rfl⟩

/-- C2: a scanned record is kept by the Vault-Index filter of
`ScanDailyNotes` iff it has at least one tag and no tag of it equals an
excluded tag or extends one across a `/` boundary; in particular a
record tagged only `#habit/daily` is dropped when `#habit` is excluded,
a record tagged `#habitat` is kept, and a tagless record never appears
for any excluded-tag list. -/
theorem c2_vault_filter :
    (∀ (excl : List String) (ts : List Task) (t : Task),
      t ∈ scanFilter excl ts ↔
        t ∈ ts ∧ t.tags ≠ [] ∧
          ∀ a ∈ t.tags, ¬∃ e ∈ excl, a = e ∨ (e ++ "/").data <+: a.data) ∧
    (∀ (excl : List String) (ts : List Task) (t : Task),
      t.tags = [] → t ∉ scanFilter excl ts) ∧
    (∀ (ts : List Task) (t : Task),
      t.tags = ["#habit/daily"] → t ∉ scanFilter ["#habit"] ts) ∧
    (∀ (ts : List Task) (t : Task),
      t ∈ ts → t.tags = ["#habitat"] → t ∈ scanFilter ["#habit"] ts) := by
  have hmain : ∀ (excl : List String) (ts : List Task) (t : Task),
      t ∈ scanFilter excl ts ↔
        t ∈ ts ∧ t.tags ≠ [] ∧
          ∀ a ∈ t.tags, ¬∃ e ∈ excl, a = e ∨ (e ++ "/").data <+: a.data := by
    intro excl ts t
    rw [scanFilter, List.mem_filter, keepTask_iff]
  refine ⟨hmain, ?_, ?_, ?_⟩
  · intro excl ts t htags hmem
    exact absurd ((hmain excl ts t).1 hmem).2.1 (by simp [htags])
  · intro ts t htags hmem
    have h := ((hmain ["#habit"] ts t).1 hmem).2.2 "#habit/daily" (by simp [htags])
    exact h ⟨"#habit", by simp, Or.inr (by decide)⟩
  · intro ts t hmem htags
    refine (hmain ["#habit"] ts t).2 ⟨hmem, by simp [htags], ?_⟩
    intro a ha
    rw [htags] at ha
    simp only [List.mem_singleton] at ha
    rw [ha]
    rintro ⟨e, he, hcase⟩
    simp only [List.mem_singleton] at he
    rw [he] at hcase
    rcases hcase with h1 | h2
    · exact absurd h1 (by decide)
    · exact absurd h2 (by decide)

/-- Witness for C2 at concrete inputs: a record tagged `#habitat` stays
in the filtered scan when `#habit` is excluded. -/
theorem c2_witness :
    ({ exTaskA with tags := ["#habitat"] } : Task) ∈
      scanFilter ["#habit"] [{ exTaskA with tags := ["#habitat"] }] :=
  c2_vault_filter.2.2.2 [{ exTaskA with tags := ["#habitat"] }]
    { exTaskA with tags := ["#habitat"] } (by simp) rfl

/-- C9: whenever a record's stored line number does not address an
existing line (below 1 or beyond the file's line count), `ToggleDone`,
`DeleteTask` and `UpdateTaskLine` all return the out-of-range error
(`none`), producing no new line list and no record update. -/
theorem c9_stale_locator (lines : List String) (t : Task) (d : Date)
    (newLine : String)
    (h : t.lineNumber < 1 ∨ (lines.length : Int) < t.lineNumber) :
    toggleDone lines t d = none ∧ deleteTaskLines lines t = none ∧
    updateTaskLines lines t newLine = none := by
  have hc : t.lineNumber - 1 < 0 ∨ (lines.length : Int) ≤ t.lineNumber - 1 := by
    omega
  unfold toggleDone deleteTaskLines updateTaskLines
  simp only [if_pos hc]
  exact ⟨trivial, trivial, trivial⟩

/-- Witness for C9: a stale locator (line 2 of a one-line file) makes all
three mutators fail. -/
theorem c9_witness :
    toggleDone ["- [ ] a"] exTaskB ⟨2026, 1, 1⟩ = none ∧
    deleteTaskLines ["- [ ] a"] exTaskB = none ∧
    updateTaskLines ["- [ ] a"] exTaskB "n" = none :=
  c9_stale_locator ["- [ ] a"] exTaskB ⟨2026, 1, 1⟩ "n" (by decide)

theorem toggleDone_fields (lines : List String) (t : Task) (d : Date)
    (h1 : 1 ≤ t.lineNumber) (h2 : t.lineNumber ≤ (lines.length : Int)) :
    ∃ out t1, toggleDone lines t d = some (out, t1) ∧
      out.length = lines.length ∧ t1.lineNumber = t.lineNumber ∧
      t1.done = !t.done ∧
      t1.completionDate = (if t.done then Date.zero else d) := by
  have hc : ¬(t.lineNumber - 1 < 0 ∨ (lines.length : Int) ≤ t.lineNumber - 1) := by
    omega
  unfold toggleDone
  simp only [if_neg hc]
  by_cases hd : t.done
  · rw [if_pos hd]
    refine ⟨_, _, rfl, List.length_set _ _ _, rfl, ?_, ?_⟩
    · simp [hd]
    · simp [hd]
  · rw [if_neg hd]
    simp only [Bool.not_eq_true] at hd
    refine ⟨_, _, rfl, List.length_set _ _ _, rfl, ?_, ?_⟩
    · simp [hd]
    · simp [hd]

/-- C6 counterexample: a record that starts done with completion date
2026-01-01, toggled twice on 2026-02-02, ends done with completion date
2026-02-02 — the `done`/`completion_date` pair is not restored to its
starting value. -/
theorem c6_counterexample :
    ((toggleDone ["- [x] a #w ✅ 2026-01-01"] exTaskDone ⟨2026, 2, 2⟩).bind
        (fun p => toggleDone p.1 p.2 ⟨2026, 2, 2⟩)).map
        (fun p => (p.2.done, p.2.completionDate)) =
      some (true, ⟨2026, 2, 2⟩) ∧
    exTaskDone.done = true ∧
    exTaskDone.completionDate ≠ (⟨2026, 2, 2⟩ : Date) := by
  decide

/-- C6 amended: toggling an in-range record twice always succeeds and
restores `done` to its starting value; `completion_date` ends cleared
when the record started not-done (even if it originally carried one),
and ends at the second toggle's current date when it started done (not
at its original value). The first application flips `done` and sets the
completion date to the toggle day when marking done, clearing it when
marking undone. -/
theorem c6_toggle_twice (lines : List String) (t : Task) (d1 d2 : Date)
    (h1 : 1 ≤ t.lineNumber) (h2 : t.lineNumber ≤ (lines.length : Int)) :
    ∃ out1 t1 out2 t2,
      toggleDone lines t d1 = some (out1, t1) ∧
      toggleDone out1 t1 d2 = some (out2, t2) ∧
      t1.done = !t.done ∧
      t1.completionDate = (if t.done then Date.zero else d1) ∧
      t2.done = t.done ∧
      t2.completionDate = (if t.done then d2 else Date.zero) := by
  obtain ⟨out1, t1, he1, hlen1, hln1, hdone1, hcomp1⟩ :=
    toggleDone_fields lines t d1 h1 h2
  obtain ⟨out2, t2, he2, hlen2, hln2, hdone2, hcomp2⟩ :=
    toggleDone_fields out1 t1 d2 (by omega) (by rw [hlen1]; omega)
  refine ⟨out1, t1, out2, t2, he1, he2, hdone1, hcomp1, ?_, ?_⟩
  · rw [hdone2, hdone1, Bool.not_not]
  · rw [hcomp2, hdone1]
    by_cases hd : t.done
    · simp [hd]
    · simp only [Bool.not_eq_true] at hd
      simp [hd]

/-- Witness for C6 at a concrete input: a one-line file with an undone
task, toggled on 2026-02-28 and back on 2026-03-01, ends undone with the
completion date cleared. -/
theorem c6_witness :
    ∃ out1 t1 out2 t2,
      toggleDone ["- [ ] a #w"] exTaskUndone ⟨2026, 2, 28⟩ = some (out1, t1) ∧
      toggleDone out1 t1 ⟨2026, 3, 1⟩ = some (out2, t2) ∧
      t1.done = !exTaskUndone.done ∧
      t1.completionDate =
        (if exTaskUndone.done then Date.zero else (⟨2026, 2, 28⟩ : Date)) ∧
      t2.done = exTaskUndone.done ∧
      t2.completionDate =
        (if exTaskUndone.done then (⟨2026, 3, 1⟩ : Date) else Date.zero) :=
  c6_toggle_twice ["- [ ] a #w"] exTaskUndone
    ⟨2026, 2, 28⟩ ⟨2026, 3, 1⟩ (by decide) (by decide)

/-- C8: for an in-range locator, `ToggleDone` and `UpdateTaskLine`
preserve the file's line count and leave every line other than the
addressed one unchanged, and `DeleteTask` removes exactly the addressed
line, the earlier lines staying in place and each later line shifting up
by one position. -/
theorem c8_single_line_frame (lines : List String) (t : Task) (d : Date)
    (newLine : String) :
    (∀ out t1, toggleDone lines t d = some (out, t1) →
      out.length = lines.length ∧
        ∀ j : Nat, (j : Int) ≠ t.lineNumber - 1 → out[j]? = lines[j]?) ∧
    (∀ out t1, updateTaskLines lines t newLine = some (out, t1) →
      out.length = lines.length ∧
        ∀ j : Nat, (j : Int) ≠ t.lineNumber - 1 → out[j]? = lines[j]?) ∧
    (∀ out, deleteTaskLines lines t = some out →
      out.length + 1 = lines.length ∧
      (∀ j : Nat, (j : Int) < t.lineNumber - 1 → out[j]? = lines[j]?) ∧
      (∀ j : Nat, t.lineNumber - 1 ≤ (j : Int) → out[j]? = lines[j + 1]?)) := by
  by_cases hc : (t.lineNumber - 1 < 0 ∨ (lines.length : Int) ≤ t.lineNumber - 1)
  · refine ⟨?_, ?_, ?_⟩ <;> intro out
    · intro t1 hout
      unfold toggleDone at hout
      simp only [if_pos hc] at hout
      exact absurd hout (by simp)
    · intro t1 hout
      unfold updateTaskLines at hout
      simp only [if_pos hc] at hout
      exact absurd hout (by simp)
    · intro hout
      unfold deleteTaskLines at hout
      simp only [if_pos hc] at hout
      exact absurd hout (by simp)
  · have hnn : (0 : Int) ≤ t.lineNumber - 1 := by omega
    have hlt : t.lineNumber - 1 < (lines.length : Int) := by omega
    have hnat : ((t.lineNumber - 1).toNat : Int) = t.lineNumber - 1 :=
      Int.toNat_of_nonneg hnn
    refine ⟨?_, ?_, ?_⟩
    · intro out t1 hout
      unfold toggleDone at hout
      simp only [if_neg hc] at hout
      have hset : ∃ v, out = lines.set (t.lineNumber - 1).toNat v := by
        by_cases hd : t.done
        · rw [if_pos hd] at hout
          simp only [Option.some.injEq, Prod.mk.injEq] at hout
          exact ⟨_, hout.1.symm⟩
        · rw [if_neg hd] at hout
          simp only [Option.some.injEq, Prod.mk.injEq] at hout
          exact ⟨_, hout.1.symm⟩
      obtain ⟨v, hv⟩ := hset
      subst hv
      refine ⟨List.length_set lines _ _, ?_⟩
      intro j hj
      exact List.getElem?_set_ne (by omega)
    · intro out t1 hout
      unfold updateTaskLines at hout
      simp only [if_neg hc, Option.some.injEq, Prod.mk.injEq] at hout
      obtain ⟨hv, -⟩ := hout
      rw [← hv]
      refine ⟨List.length_set lines _ _, ?_⟩
      intro j hj
      exact List.getElem?_set_ne (by omega)
    · intro out hout
      unfold deleteTaskLines at hout
      simp only [if_neg hc, Option.some.injEq] at hout
      rw [← hout]
      have hi : (t.lineNumber - 1).toNat < lines.length := by omega
      have htk : (lines.take (t.lineNumber - 1).toNat).length =
          (t.lineNumber - 1).toNat := by
        rw [List.length_take]; omega
      refine ⟨?_, ?_, ?_⟩
      · rw [List.length_append, htk, List.length_drop]; omega
      · intro j hj
        have hjlt : j < (lines.take (t.lineNumber - 1).toNat).length := by
          rw [htk]; omega
        rw [List.getElem?_append, if_pos hjlt, List.getElem?_take,
          if_pos (by omega : j < (t.lineNumber - 1).toNat)]
      · intro j hj
        have hjge : (lines.take (t.lineNumber - 1).toNat).length ≤ j := by
          rw [htk]; omega
        rw [List.getElem?_append_right hjge, List.getElem?_drop, htk]
        congr 1
        omega

theorem scopeAfter_nil (heading : String) (b : Bool) :
    scopeAfter heading b [] = b := rfl

theorem scopeAfter_cons (heading : String) (b : Bool) (l : String)
    (ls : List String) :
    scopeAfter heading b (l :: ls) =
      scopeAfter heading (scopeStep heading b l) ls := rfl

theorem parseFileGo_eq_filterMap (filePath heading : String) (noteDate : Date)
    (lines : List String) :
    ∀ (n : Int) (b : Bool), heading ≠ "" →
      parseFileGo filePath heading noteDate lines n b =
        (List.range lines.length).filterMap (fun i =>
          if scopeAfter heading b (lines.take i) = true ∧
              goTrimStr (lines.getD i "") ≠ heading ∧
              closesLine heading (goTrimStr (lines.getD i "")) = false
          then parseTask (lines.getD i "") filePath (n + (i : Int)) noteDate
          else none) := by
  induction lines with
  | nil => intro n b _; simp [parseFileGo]
  | cons l rest ih =>
    intro n b hne
    have hlen : (l :: rest).length = rest.length + 1 := rfl
    rw [hlen, List.range_succ_eq_map, List.filterMap_cons, List.filterMap_map]
    have htail :
        List.filterMap
          ((fun i =>
            if scopeAfter heading b ((l :: rest).take i) = true ∧
                goTrimStr ((l :: rest).getD i "") ≠ heading ∧
                closesLine heading (goTrimStr ((l :: rest).getD i "")) = false
            then parseTask ((l :: rest).getD i "") filePath (n + (i : Int)) noteDate
            else none) ∘ Nat.succ) (List.range rest.length) =
        parseFileGo filePath heading noteDate rest (n + 1)
          (scopeStep heading b l) := by
      rw [ih (n + 1) (scopeStep heading b l) hne]
      apply List.filterMap_congr
      intro i _
      simp only [Function.comp_apply, List.take_succ_cons, List.getD_cons_succ,
        scopeAfter_cons]
      congr 2
      push_cast
      ring
    by_cases h1 : goTrimStr l = heading
    · have hstep : scopeStep heading b l = true := by
        simp [scopeStep, h1]
      have hf0 :
          (if scopeAfter heading b ((l :: rest).take 0) = true ∧
              goTrimStr ((l :: rest).getD 0 "") ≠ heading ∧
              closesLine heading (goTrimStr ((l :: rest).getD 0 "")) = false
          then parseTask ((l :: rest).getD 0 "") filePath (n + ((0 : Nat) : Int))
            noteDate
          else none) = none := by
        simp [h1]
      rw [hf0, htail, hstep]
      show parseFileGo filePath heading noteDate (l :: rest) n b = _
      rw [parseFileGo]
      rw [if_pos ⟨hne, h1⟩]
    · by_cases h2 : closesLine heading (goTrimStr l) = true
      · have hstep : scopeStep heading b l = false := by
          simp [scopeStep, h1, h2]
        have hf0 :
            (if scopeAfter heading b ((l :: rest).take 0) = true ∧
                goTrimStr ((l :: rest).getD 0 "") ≠ heading ∧
                closesLine heading (goTrimStr ((l :: rest).getD 0 "")) = false
            then parseTask ((l :: rest).getD 0 "") filePath (n + ((0 : Nat) : Int))
              noteDate
            else none) = none := by
          simp [h2]
        rw [hf0, htail, hstep]
        show parseFileGo filePath heading noteDate (l :: rest) n b = _
        rw [parseFileGo]
        rw [if_neg (by intro hcon; exact h1 hcon.2)]
        by_cases hb : b = true
        · rw [if_pos ⟨hne, hb, h2⟩]
        · rw [if_neg (by intro hcon; exact hb hcon.2.1)]
          rw [if_neg hb]
          have hbf : b = false := by
            cases b
            · rfl
            · exact absurd rfl hb
          rw [hbf]
      · have h2f : closesLine heading (goTrimStr l) = false := by
          cases hcl : closesLine heading (goTrimStr l)
          · rfl
          · exact absurd hcl h2
        have hstep : scopeStep heading b l = b := by
          simp [scopeStep, h1, h2f]
        have hf0 :
            (if scopeAfter heading b ((l :: rest).take 0) = true ∧
                goTrimStr ((l :: rest).getD 0 "") ≠ heading ∧
                closesLine heading (goTrimStr ((l :: rest).getD 0 "")) = false
            then parseTask ((l :: rest).getD 0 "") filePath (n + ((0 : Nat) : Int))
              noteDate
            else none) =
            (if b = true then parseTask l filePath n noteDate else none) := by
          simp only [List.take_zero, List.getD_cons_zero, scopeAfter_nil,
            Nat.cast_zero, add_zero]
          by_cases hb : b = true
          · rw [if_pos ⟨hb, h1, h2f⟩, if_pos hb]
          · rw [if_neg (by intro hcon; exact hb hcon.1), if_neg hb]
        rw [hf0, htail, hstep]
        show parseFileGo filePath heading noteDate (l :: rest) n b = _
        rw [parseFileGo]
        rw [if_neg (by intro hcon; exact h1 hcon.2)]
        have hnc2 : ¬(heading ≠ "" ∧ b = true ∧
            closesLine heading (goTrimStr l) = true) := by
          intro hcon
          rw [hcon.2.2] at h2f
          exact absurd h2f (by simp)
        rw [if_neg hnc2]
        by_cases hb : b = true
        · rw [if_pos hb, if_pos hb]
          cases hparse : parseTask l filePath n noteDate with
          | none => rfl
          | some tk => rfl
        · rw [if_neg hb, if_neg hb]

theorem wfTagAux_append_word (w s : List Char)
    (hw : ∀ c ∈ w, goWordChar c = true) :
    wfTagAux (w ++ s) = wfTagAux s := by
  induction w with
  | nil => rfl
  | cons c w' ih =>
    have hc := hw c (List.mem_cons_self _ _)
    have hrest : ∀ d ∈ w', goWordChar d = true :=
      fun d hd => hw d (List.mem_cons_of_mem _ hd)
    cases hws : w' ++ s with
    | nil =>
      have hpair := List.append_eq_nil.1 hws
      rw [List.cons_append, hws, hpair.2]
      simp [wfTagAux, hc]
    | cons d tail =>
      rw [List.cons_append, hws]
      simp only [wfTagAux, hc, if_true]
      rw [← hws]
      exact ih hrest

theorem span_word_members (cs w r : List Char)
    (hsp : List.span goWordChar cs = (w, r)) :
    ∀ c ∈ w, goWordChar c = true := by
  intro c hc
  have heq := List.span_eq_take_drop goWordChar cs
  rw [hsp] at heq
  have hw : w = cs.takeWhile goWordChar := congrArg Prod.fst heq
  rw [hw] at hc
  exact List.mem_takeWhile_imp hc

theorem munchSegsAux_wf (fuel : Nat) :
    ∀ cs, wfTagAux (munchSegsAux fuel cs).1 = true := by
  induction fuel with
  | zero => intro cs; rfl
  | succ f ih =>
    intro cs
    cases cs with
    | nil => rfl
    | cons c rest =>
      simp only [munchSegsAux]
      by_cases hc : c = '/'
      · rw [if_pos hc]
        cases hsp : List.span goWordChar rest with
        | mk w r =>
          cases w with
          | nil => rfl
          | cons d w' =>
            have hwd := span_word_members rest (d :: w') r hsp
            have hd := hwd d (List.mem_cons_self _ _)
            have hw' : ∀ e ∈ w', goWordChar e = true :=
              fun e he => hwd e (List.mem_cons_of_mem _ he)
            show wfTagAux (c :: (d :: w' ++ (munchSegsAux f r).1)) = true
            rw [hc]
            have hsl : goWordChar '/' = false := by decide
            simp only [List.cons_append, wfTagAux, hsl, Bool.false_eq_true,
              if_false, decide_True, if_true]
            rw [Bool.and_eq_true]
            refine ⟨hd, ?_⟩
            show wfTagAux (w' ++ (munchSegsAux f r).1) = true
            rw [wfTagAux_append_word w' _ hw']
            exact ih r
      · rw [if_neg hc]
        rfl

theorem findTagsAux_wf (fuel : Nat) :
    ∀ cs s, s ∈ findTagsAux fuel cs → wfTag s.data = true := by
  induction fuel with
  | zero => intro cs s hs; exact absurd hs (List.not_mem_nil s)
  | succ f ih =>
    intro cs s hs
    cases cs with
    | nil => exact absurd hs (List.not_mem_nil s)
    | cons c rest =>
      simp only [findTagsAux] at hs
      by_cases hc : c = '#'
      · rw [if_pos hc] at hs
        cases hsp : List.span goWordChar rest with
        | mk w r =>
          rw [hsp] at hs
          cases w with
          | nil => exact ih rest s hs
          | cons d w' =>
            simp only [List.mem_cons] at hs
            rcases hs with hhead | htail
            · rw [hhead]
              have hwd := span_word_members rest (d :: w') r hsp
              have hd := hwd d (List.mem_cons_self _ _)
              have hw' : ∀ e ∈ w', goWordChar e = true :=
                fun e he => hwd e (List.mem_cons_of_mem _ he)
              show wfTag ('#' :: (d :: w' ++ (munchSegs r).1)) = true
              simp only [List.cons_append, wfTag, Bool.and_eq_true, beq_iff_eq,
                and_true, true_and, eq_self_iff_true]
              refine ⟨hd, ?_⟩
              rw [wfTagAux_append_word w' _ hw']
              exact munchSegsAux_wf r.length r
            · exact ih _ s htail
      · rw [if_neg hc] at hs
        exact ih rest s hs

theorem findTags_wf (cs : List Char) :
    ∀ s ∈ findTags cs, wfTag s.data = true :=
  fun s hs => findTagsAux_wf cs.length cs s hs

theorem addToGroup_mem (d : Date) (i : Nat) (gs : List DateGroup) :
    ∃ g ∈ addToGroup d i gs, g.date = d ∧ i ∈ g.tasks := by
  induction gs with
  | nil => exact ⟨⟨d, [i]⟩, by simp [addToGroup]⟩
  | cons g0 gs' ih =>
    by_cases h0 : g0.date = d
    · refine ⟨⟨g0.date, g0.tasks ++ [i]⟩, ?_, h0, by simp⟩
      simp [addToGroup, h0]
    · obtain ⟨g, hg, hgd, hgi⟩ := ih
      refine ⟨g, ?_, hgd, hgi⟩
      simp only [addToGroup, if_neg h0]
      exact List.mem_cons_of_mem _ hg

theorem addToGroup_preserves (d : Date) (i : Nat) (gs : List DateGroup)
    (d' : Date) (i' : Nat) (h : ∃ g ∈ gs, g.date = d' ∧ i' ∈ g.tasks) :
    ∃ g ∈ addToGroup d i gs, g.date = d' ∧ i' ∈ g.tasks := by
  induction gs with
  | nil => exact absurd h (by simp)
  | cons g0 gs' ih =>
    obtain ⟨g, hg, hgd, hgi⟩ := h
    rcases List.mem_cons.1 hg with hhead | htail
    · by_cases h0 : g0.date = d
      · refine ⟨⟨g0.date, g0.tasks ++ [i]⟩, ?_, ?_, ?_⟩
        · simp [addToGroup, h0]
        · rw [hhead] at hgd; exact hgd
        · rw [hhead] at hgi
          exact List.mem_append_left _ hgi
      · refine ⟨g0, ?_, ?_, ?_⟩
        · simp [addToGroup, h0]
        · rw [hhead] at hgd; exact hgd
        · rw [hhead] at hgi; exact hgi
    · by_cases h0 : g0.date = d
      · refine ⟨g, ?_, hgd, hgi⟩
        simp only [addToGroup, if_pos h0]
        exact List.mem_cons_of_mem _ htail
      · obtain ⟨g2, hg2, hg2d, hg2i⟩ := ih ⟨g, htail, hgd, hgi⟩
        refine ⟨g2, ?_, hg2d, hg2i⟩
        simp only [addToGroup, if_neg h0]
        exact List.mem_cons_of_mem _ hg2

theorem addToGroup_dates (d : Date) (i : Nat) (gs : List DateGroup) :
    (addToGroup d i gs).map (fun g => g.date) = gs.map (fun g => g.date) ∨
    (addToGroup d i gs).map (fun g => g.date) =
      gs.map (fun g => g.date) ++ [d] := by
  induction gs with
  | nil => right; simp [addToGroup]
  | cons g0 gs' ih =>
    by_cases h0 : g0.date = d
    · left; simp [addToGroup, h0]
    · rcases ih with h | h
      · left
        simp only [addToGroup, if_neg h0, List.map_cons, h]
      · right
        simp only [addToGroup, if_neg h0, List.map_cons, h, List.cons_append]

theorem addToGroup_dates_nodup (d : Date) (i : Nat) (gs : List DateGroup)
    (h : (gs.map (fun g => g.date)).Nodup) :
    ((addToGroup d i gs).map (fun g => g.date)).Nodup := by
  induction gs with
  | nil => simp [addToGroup]
  | cons g0 gs' ih =>
    simp only [List.map_cons, List.nodup_cons] at h
    by_cases h0 : g0.date = d
    · simp only [addToGroup, if_pos h0, List.map_cons, List.nodup_cons]
      exact h
    · simp only [addToGroup, if_neg h0, List.map_cons, List.nodup_cons]
      refine ⟨?_, ih h.2⟩
      intro hmem
      rcases addToGroup_dates d i gs' with heq | heq
      · rw [heq] at hmem
        exact h.1 hmem
      · rw [heq] at hmem
        rcases List.mem_append.1 hmem with hm | hm
        · exact h.1 hm
        · simp only [List.mem_singleton] at hm
          exact h0 hm

theorem insertAsc_perm (g : DateGroup) (l : List DateGroup) :
    (insertAsc g l).Perm (g :: l) := by
  induction l with
  | nil => simp [insertAsc]
  | cons h0 t ih =>
    by_cases hle : dateKey g.date ≤ dateKey h0.date
    · simp [insertAsc, hle]
    · simp only [insertAsc, if_neg hle]
      exact (ih.cons h0).trans (List.Perm.swap g h0 t)

theorem sortGroupsAsc_perm (l : List DateGroup) :
    (sortGroupsAsc l).Perm l := by
  induction l with
  | nil => simp [sortGroupsAsc]
  | cons g t ih =>
    exact (insertAsc_perm g (sortGroupsAsc t)).trans (ih.cons g)

theorem insertAsc_sorted (g : DateGroup) (l : List DateGroup)
    (h : l.Pairwise (fun a b => dateKey a.date ≤ dateKey b.date)) :
    (insertAsc g l).Pairwise (fun a b => dateKey a.date ≤ dateKey b.date) := by
  induction l with
  | nil => simp [insertAsc]
  | cons h0 t ih =>
    rcases List.pairwise_cons.1 h with ⟨hall, ht⟩
    by_cases hle : dateKey g.date ≤ dateKey h0.date
    · rw [insertAsc, if_pos hle]
      refine List.Pairwise.cons ?_ h
      intro b hb
      rcases List.mem_cons.1 hb with hb0 | hbt
      · rw [hb0]; exact hle
      · exact le_trans hle (hall b hbt)
    · rw [insertAsc, if_neg hle]
      refine List.Pairwise.cons ?_ (ih ht)
      intro b hb
      have hb2 := (insertAsc_perm g t).mem_iff.1 hb
      rcases List.mem_cons.1 hb2 with hbg | hbt
      · rw [hbg]; omega
      · exact hall b hbt

theorem sortGroupsAsc_sorted (l : List DateGroup) :
    (sortGroupsAsc l).Pairwise (fun a b => dateKey a.date ≤ dateKey b.date) := by
  induction l with
  | nil => simp [sortGroupsAsc]
  | cons g t ih => exact insertAsc_sorted g (sortGroupsAsc t) ih

theorem insertDesc_perm (g : DateGroup) (l : List DateGroup) :
    (insertDesc g l).Perm (g :: l) := by
  induction l with
  | nil => simp [insertDesc]
  | cons h0 t ih =>
    by_cases hle : dateKey h0.date ≤ dateKey g.date
    · simp [insertDesc, hle]
    · simp only [insertDesc, if_neg hle]
      exact (ih.cons h0).trans (List.Perm.swap g h0 t)

theorem sortGroupsDesc_perm (l : List DateGroup) :
    (sortGroupsDesc l).Perm l := by
  induction l with
  | nil => simp [sortGroupsDesc]
  | cons g t ih =>
    exact (insertDesc_perm g (sortGroupsDesc t)).trans (ih.cons g)

theorem insertDesc_sorted (g : DateGroup) (l : List DateGroup)
    (h : l.Pairwise (fun a b => dateKey b.date ≤ dateKey a.date)) :
    (insertDesc g l).Pairwise (fun a b => dateKey b.date ≤ dateKey a.date) := by
  induction l with
  | nil => simp [insertDesc]
  | cons h0 t ih =>
    rcases List.pairwise_cons.1 h with ⟨hall, ht⟩
    by_cases hle : dateKey h0.date ≤ dateKey g.date
    · rw [insertDesc, if_pos hle]
      refine List.Pairwise.cons ?_ h
      intro b hb
      rcases List.mem_cons.1 hb with hb0 | hbt
      · rw [hb0]; exact hle
      · exact le_trans (hall b hbt) hle
    · rw [insertDesc, if_neg hle]
      refine List.Pairwise.cons ?_ (ih ht)
      intro b hb
      have hb2 := (insertDesc_perm g t).mem_iff.1 hb
      rcases List.mem_cons.1 hb2 with hbg | hbt
      · rw [hbg]; omega
      · exact hall b hbt

theorem sortGroupsDesc_sorted (l : List DateGroup) :
    (sortGroupsDesc l).Pairwise (fun a b => dateKey b.date ≤ dateKey a.date) := by
  induction l with
  | nil => simp [sortGroupsDesc]
  | cons g t ih => exact insertDesc_sorted g (sortGroupsDesc t) ih

theorem date_trichotomy (a b : Date) :
    a.before b = true ↔ (Date.before b a = false ∧ a ≠ b) := by
  rcases a with ⟨ay, am, ad⟩
  rcases b with ⟨cy, cm, cd⟩
  simp only [Date.before, decide_eq_true_eq, decide_eq_false_iff_not, ne_eq,
    Date.mk.injEq]
  constructor
  · intro h
    constructor
    · omega
    · intro hc
      omega
  · intro h
    rcases h with ⟨h1, h2⟩
    by_contra hc
    apply h2
    constructor
    · omega
    constructor
    · omega
    · omega

/-- The five possible effects of one classification-loop iteration. -/
theorem classifyStep_shape (today : Date) (filt : String) (r : Classified)
    (p : Nat × Task) :
    classifyStep today filt r p = r ∨
    (∃ dd, classifyStep today filt r p =
      { r with logbookMap := addToGroup dd p.1 r.logbookMap }) ∨
    classifyStep today filt r p =
      { r with upcomingMap := addToGroup p.2.dueDate p.1 r.upcomingMap } ∨
    classifyStep today filt r p =
      { r with todayUndone := r.todayUndone ++ [p.1] } ∨
    classifyStep today filt r p =
      { r with overdueUndone := r.overdueUndone ++ [p.1] } := by
  unfold classifyStep
  by_cases h1 : matchesFilter filt p.2 = true
  · rw [if_neg (by simp [h1])]
    by_cases h2 : p.2.done = true
    · rw [if_pos h2]
      exact Or.inr (Or.inl ⟨_, rfl⟩)
    · rw [if_neg h2]
      by_cases h3 : p.2.dueDate.after today = true
      · rw [if_pos h3]
        exact Or.inr (Or.inr (Or.inl rfl))
      · rw [if_neg h3]
        by_cases h4 : p.2.dueDate = today
        · rw [if_pos h4]
          exact Or.inr (Or.inr (Or.inr (Or.inl rfl)))
        · rw [if_neg h4]
          exact Or.inr (Or.inr (Or.inr (Or.inr rfl)))
  · rw [if_pos (by simp [h1])]
    exact Or.inl rfl

theorem classifyStep_preserves (today : Date) (filt : String)
    (acc : Classified) (p : Nat × Task) :
    (∀ i, i ∈ acc.todayUndone →
      i ∈ (classifyStep today filt acc p).todayUndone) ∧
    (∀ i, i ∈ acc.overdueUndone →
      i ∈ (classifyStep today filt acc p).overdueUndone) ∧
    (∀ d i, (∃ g ∈ acc.upcomingMap, g.date = d ∧ i ∈ g.tasks) →
      ∃ g ∈ (classifyStep today filt acc p).upcomingMap,
        g.date = d ∧ i ∈ g.tasks) ∧
    (∀ d i, (∃ g ∈ acc.logbookMap, g.date = d ∧ i ∈ g.tasks) →
      ∃ g ∈ (classifyStep today filt acc p).logbookMap,
        g.date = d ∧ i ∈ g.tasks) := by
  rcases classifyStep_shape today filt acc p with h | ⟨dd, h⟩ | h | h | h <;>
    rw [h]
  · exact ⟨fun i h => h, fun i h => h, fun d i h => h, fun d i h => h⟩
  · exact ⟨fun i h => h, fun i h => h, fun d i h => h,
      fun d i h => addToGroup_preserves dd p.1 acc.logbookMap d i h⟩
  · exact ⟨fun i h => h, fun i h => h,
      fun d i h => addToGroup_preserves p.2.dueDate p.1 acc.upcomingMap d i h,
      fun d i h => h⟩
  · exact ⟨fun i h => List.mem_append_left _ h, fun i h => h,
      fun d i h => h, fun d i h => h⟩
  · exact ⟨fun i h => h, fun i h => List.mem_append_left _ h,
      fun d i h => h, fun d i h => h⟩

theorem classify_foldl_preserves (today : Date) (filt : String)
    (l : List (Nat × Task)) :
    ∀ (acc : Classified),
      (∀ i, i ∈ acc.todayUndone →
        i ∈ (l.foldl (classifyStep today filt) acc).todayUndone) ∧
      (∀ i, i ∈ acc.overdueUndone →
        i ∈ (l.foldl (classifyStep today filt) acc).overdueUndone) ∧
      (∀ d i, (∃ g ∈ acc.upcomingMap, g.date = d ∧ i ∈ g.tasks) →
        ∃ g ∈ (l.foldl (classifyStep today filt) acc).upcomingMap,
          g.date = d ∧ i ∈ g.tasks) ∧
      (∀ d i, (∃ g ∈ acc.logbookMap, g.date = d ∧ i ∈ g.tasks) →
        ∃ g ∈ (l.foldl (classifyStep today filt) acc).logbookMap,
          g.date = d ∧ i ∈ g.tasks) := by
  induction l with
  | nil =>
    intro acc
    exact ⟨fun i h => h, fun i h => h, fun d i h => h, fun d i h => h⟩
  | cons p l' ih =>
    intro acc
    rw [List.foldl_cons]
    obtain ⟨s1, s2, s3, s4⟩ := classifyStep_preserves today filt acc p
    obtain ⟨f1, f2, f3, f4⟩ := ih (classifyStep today filt acc p)
    exact ⟨fun i h => f1 i (s1 i h), fun i h => f2 i (s2 i h),
      fun d i h => f3 d i (s3 d i h), fun d i h => f4 d i (s4 d i h)⟩

theorem classifyStep_places (today : Date) (filt : String) (acc : Classified)
    (i : Nat) (t : Task) (hf : matchesFilter filt t = true) :
    (t.done = true →
      ∃ g ∈ (classifyStep today filt acc (i, t)).logbookMap,
        g.date = (if t.completionDate.isZero then t.dueDate
                  else t.completionDate) ∧ i ∈ g.tasks) ∧
    (t.done = false → t.dueDate.after today = true →
      ∃ g ∈ (classifyStep today filt acc (i, t)).upcomingMap,
        g.date = t.dueDate ∧ i ∈ g.tasks) ∧
    (t.done = false → t.dueDate.after today = false → t.dueDate = today →
      i ∈ (classifyStep today filt acc (i, t)).todayUndone) ∧
    (t.done = false → t.dueDate.after today = false → t.dueDate ≠ today →
      i ∈ (classifyStep today filt acc (i, t)).overdueUndone) := by
  unfold classifyStep
  rw [if_neg (by simp [hf])]
  by_cases h2 : t.done = true
  · rw [if_pos h2]
    refine ⟨fun _ => ?_, fun hd => absurd h2 (by rw [hd]; simp),
      fun hd => absurd h2 (by rw [hd]; simp),
      fun hd => absurd h2 (by rw [hd]; simp)⟩
    exact addToGroup_mem _ i acc.logbookMap
  · rw [if_neg h2]
    by_cases h3 : t.dueDate.after today = true
    · rw [if_pos h3]
      refine ⟨fun hd => absurd hd h2, fun _ _ => ?_,
        fun _ h3f _ => absurd h3 (by rw [h3f]; simp),
        fun _ h3f _ => absurd h3 (by rw [h3f]; simp)⟩
      exact addToGroup_mem t.dueDate i acc.upcomingMap
    · rw [if_neg h3]
      by_cases h4 : t.dueDate = today
      · rw [if_pos h4]
        refine ⟨fun hd => absurd hd h2, fun _ ha => absurd ha h3,
          fun _ _ _ => ?_, fun _ _ hne => absurd h4 hne⟩
        exact List.mem_append_right _ (List.mem_singleton.2 rfl)
      · rw [if_neg h4]
        refine ⟨fun hd => absurd hd h2, fun _ ha => absurd ha h3,
          fun _ _ heq => absurd heq h4, fun _ _ _ => ?_⟩
        exact List.mem_append_right _ (List.mem_singleton.2 rfl)

theorem classify_fold_mem (today : Date) (filt : String)
    (l : List (Nat × Task)) :
    ∀ (acc : Classified) (i : Nat) (t : Task), (i, t) ∈ l →
      matchesFilter filt t = true →
      (t.done = true →
        ∃ g ∈ (l.foldl (classifyStep today filt) acc).logbookMap,
          g.date = (if t.completionDate.isZero then t.dueDate
                    else t.completionDate) ∧ i ∈ g.tasks) ∧
      (t.done = false → t.dueDate.after today = true →
        ∃ g ∈ (l.foldl (classifyStep today filt) acc).upcomingMap,
          g.date = t.dueDate ∧ i ∈ g.tasks) ∧
      (t.done = false → t.dueDate.after today = false → t.dueDate = today →
        i ∈ (l.foldl (classifyStep today filt) acc).todayUndone) ∧
      (t.done = false → t.dueDate.after today = false → t.dueDate ≠ today →
        i ∈ (l.foldl (classifyStep today filt) acc).overdueUndone) := by
  induction l with
  | nil =>
    intro acc i t hmem _
    exact absurd hmem (List.not_mem_nil _)
  | cons p l' ih =>
    intro acc i t hmem hf
    rw [List.foldl_cons]
    rcases List.mem_cons.1 hmem with hhead | htail
    · obtain ⟨p1, p2, p3, p4⟩ :=
        classifyStep_places today filt acc i t hf
      obtain ⟨f1, f2, f3, f4⟩ :=
        classify_foldl_preserves today filt l' (classifyStep today filt acc p)
      rw [hhead] at p1 p2 p3 p4
      refine ⟨fun hd => f4 _ i (p1 hd), fun hd ha => f3 _ i (p2 hd ha),
        fun hd ha he => f1 i (p3 hd ha he),
        fun hd ha he => f2 i (p4 hd ha he)⟩
    · exact ih (classifyStep today filt acc p) i t htail hf

theorem classify_upcoming_nodup (today : Date) (filt : String)
    (l : List (Nat × Task)) :
    ∀ (acc : Classified),
      ((acc.upcomingMap.map (fun g => g.date)).Nodup →
        (((l.foldl (classifyStep today filt) acc).upcomingMap.map
          (fun g => g.date)).Nodup)) ∧
      ((acc.logbookMap.map (fun g => g.date)).Nodup →
        (((l.foldl (classifyStep today filt) acc).logbookMap.map
          (fun g => g.date)).Nodup)) := by
  induction l with
  | nil => intro acc; exact ⟨fun h => h, fun h => h⟩
  | cons p l' ih =>
    intro acc
    rw [List.foldl_cons]
    obtain ⟨f1, f2⟩ := ih (classifyStep today filt acc p)
    have hstep : ((acc.upcomingMap.map (fun g => g.date)).Nodup →
          ((classifyStep today filt acc p).upcomingMap.map
            (fun g => g.date)).Nodup) ∧
        ((acc.logbookMap.map (fun g => g.date)).Nodup →
          ((classifyStep today filt acc p).logbookMap.map
            (fun g => g.date)).Nodup) := by
      rcases classifyStep_shape today filt acc p with h | ⟨dd, h⟩ | h | h | h <;>
        rw [h]
      · exact ⟨fun h => h, fun h => h⟩
      · exact ⟨fun h => h, fun h => addToGroup_dates_nodup dd p.1 _ h⟩
      · exact ⟨fun h => addToGroup_dates_nodup p.2.dueDate p.1 _ h, fun h => h⟩
      · exact ⟨fun h => h, fun h => h⟩
      · exact ⟨fun h => h, fun h => h⟩
    exact ⟨fun h => f1 (hstep.1 h), fun h => f2 (hstep.2 h)⟩

/-- C3: `buildViews` places every filtered record by comparing its
day-resolution due date with `today`: not done and strictly before goes
to the (sorted) overdue bucket, not done and equal goes to the today
bucket, not done and strictly after goes to an upcoming group keyed by
its due date, and done goes to a logbook group keyed by its completion
date with fallback to the due date when the completion date is unset;
the upcoming group keys are in ascending and the logbook group keys in
descending order (distinct keys, compared as the program's
`"2006-01-02"`-formatted map keys, here `dateKey`). -/
theorem c3_categorize (tasks : List Task) (today : Date) (filt : String) :
    (∀ (i : Nat) (t : Task), tasks[i]? = some t →
      matchesFilter filt t = true →
      ((t.done = true →
        ∃ g ∈ (buildViews tasks today filt).logbookGroups,
          g.date = (if t.completionDate.isZero then t.dueDate
                    else t.completionDate) ∧ i ∈ g.tasks) ∧
      (t.done = false → Date.before today t.dueDate = true →
        ∃ g ∈ (buildViews tasks today filt).upcomingGroups,
          g.date = t.dueDate ∧ i ∈ g.tasks) ∧
      (t.done = false → t.dueDate = today →
        i ∈ (buildViews tasks today filt).todayUndone) ∧
      (t.done = false → Date.before t.dueDate today = true →
        i ∈ (buildViews tasks today filt).overdueSorted))) ∧
    (buildViews tasks today filt).upcomingGroups.Pairwise
      (fun g h => dateKey g.date ≤ dateKey h.date) ∧
    ((buildViews tasks today filt).upcomingGroups.map
      (fun g => g.date)).Nodup ∧
    (buildViews tasks today filt).logbookGroups.Pairwise
      (fun g h => dateKey h.date ≤ dateKey g.date) ∧
    ((buildViews tasks today filt).logbookGroups.map
      (fun g => g.date)).Nodup := by
  refine ⟨?_, ?_, ?_, ?_, ?_⟩
  · intro i t hget hf
    have hmem : (i, t) ∈ tasks.enum := List.mk_mem_enum_iff_getElem?.2 hget
    obtain ⟨m1, m2, m3, m4⟩ :=
      classify_fold_mem today filt tasks.enum ⟨[], [], [], []⟩ i t hmem hf
    refine ⟨?_, ?_, ?_, ?_⟩
    · intro hd
      obtain ⟨g, hg, hgd, hgi⟩ := m1 hd
      exact ⟨g, (sortGroupsDesc_perm _).mem_iff.2 hg, hgd, hgi⟩
    · intro hd hb
      have ha : t.dueDate.after today = true := hb
      obtain ⟨g, hg, hgd, hgi⟩ := m2 hd ha
      exact ⟨g, (sortGroupsAsc_perm _).mem_iff.2 hg, hgd, hgi⟩
    · intro hd heq
      have ha : t.dueDate.after today = false := by
        show Date.before today t.dueDate = false
        rw [heq]
        exact before_irrefl today
      exact m3 hd ha heq
    · intro hd hb
      have htri := (date_trichotomy t.dueDate today).1 hb
      have hov := m4 hd htri.1 htri.2
      exact (exchangeSortAux_perm tasks _ _).mem_iff.2 hov
  · exact sortGroupsAsc_sorted _
  · have hnd := (classify_upcoming_nodup today filt tasks.enum
      ⟨[], [], [], []⟩).1 (by simp)
    exact ((sortGroupsAsc_perm _).map (fun g => g.date)).nodup_iff.2 hnd
  · exact sortGroupsDesc_sorted _
  · have hnd := (classify_upcoming_nodup today filt tasks.enum
      ⟨[], [], [], []⟩).2 (by simp)
    exact ((sortGroupsDesc_perm _).map (fun g => g.date)).nodup_iff.2 hnd

/-- Witness for C3 at a concrete input: a done record with completion
date 2026-01-01 lands in the logbook group keyed by that date. -/
theorem c3_witness :
    ∃ g ∈ (buildViews [exTaskDone] ⟨2026, 2, 28⟩ "").logbookGroups,
      g.date = (if exTaskDone.completionDate.isZero then exTaskDone.dueDate
                else exTaskDone.completionDate) ∧ 0 ∈ g.tasks :=
  ((c3_categorize [exTaskDone] ⟨2026, 2, 28⟩ "").1 0 exTaskDone rfl
    (by decide)).1 rfl

theorem span_fst_eq (cs w r : List Char)
    (hsp : List.span goWordChar cs = (w, r)) :
    w = cs.takeWhile goWordChar := by
  have heq := List.span_eq_take_drop goWordChar cs
  rw [hsp] at heq
  exact congrArg Prod.fst heq

theorem span_snd_eq (cs w r : List Char)
    (hsp : List.span goWordChar cs = (w, r)) :
    r = cs.dropWhile goWordChar := by
  have heq := List.span_eq_take_drop goWordChar cs
  rw [hsp] at heq
  exact congrArg Prod.snd heq

theorem munchSegsAux_snd_length (fuel : Nat) :
    ∀ cs, (munchSegsAux fuel cs).2.length ≤ cs.length := by
  induction fuel with
  | zero => intro cs; exact le_rfl
  | succ f ih =>
    intro cs
    cases cs with
    | nil => simp [munchSegsAux]
    | cons c rest =>
      simp only [munchSegsAux]
      by_cases hc : c = '/'
      · rw [if_pos hc]
        cases hsp : List.span goWordChar rest with
        | mk w r =>
          cases w with
          | nil => exact le_rfl
          | cons d w' =>
            show (munchSegsAux f r).2.length ≤ (c :: rest).length
            have hr : r.length ≤ rest.length := by
              rw [span_snd_eq rest _ r hsp]
              exact (List.dropWhile_sublist goWordChar).length_le
            have h1 := ih r
            simp only [List.length_cons]
            omega
      · rw [if_neg hc]

theorem findTagsAux_fuel_succ (fuel : Nat) :
    ∀ cs, cs.length ≤ fuel →
      findTagsAux (fuel + 1) cs = findTagsAux fuel cs := by
  induction fuel with
  | zero =>
    intro cs h
    have : cs = [] := List.length_eq_zero.1 (Nat.le_zero.1 h)
    rw [this]
    rfl
  | succ f ih =>
    intro cs h
    cases cs with
    | nil => rfl
    | cons c rest =>
      simp only [findTagsAux]
      by_cases hc : c = '#'
      · rw [if_pos hc, if_pos hc]
        cases hsp : List.span goWordChar rest with
        | mk w r =>
          cases w with
          | nil =>
            exact ih rest (by simpa using h)
          | cons d w' =>
            have hlen : (munchSegs r).2.length ≤ f := by
              have h1 : (munchSegs r).2.length ≤ r.length :=
                munchSegsAux_snd_length r.length r
              have h2 : r.length ≤ rest.length := by
                rw [span_snd_eq rest _ r hsp]
                exact (List.dropWhile_sublist goWordChar).length_le
              have h3 : rest.length + 1 ≤ f + 1 := by simpa using h
              omega
            show String.mk ('#' :: (d :: w' ++ (munchSegs r).1)) ::
                findTagsAux (f + 1) (munchSegs r).2 =
              String.mk ('#' :: (d :: w' ++ (munchSegs r).1)) ::
                findTagsAux f (munchSegs r).2
            rw [ih _ hlen]
      · rw [if_neg hc, if_neg hc]
        exact ih rest (by simpa using h)

theorem findTagsAux_eq_findTags (fuel : Nat) (cs : List Char)
    (h : cs.length ≤ fuel) : findTagsAux fuel cs = findTags cs := by
  induction fuel with
  | zero =>
    have hnil : cs = [] := List.length_eq_zero.1 (Nat.le_zero.1 h)
    subst hnil
    rfl
  | succ f ih =>
    by_cases hf : cs.length ≤ f
    · rw [findTagsAux_fuel_succ f cs hf]
      exact ih hf
    · have hl : cs.length = f + 1 := by omega
      rw [findTags, hl]

theorem removeTagsAux_fuel_succ (fuel : Nat) :
    ∀ cs, cs.length ≤ fuel →
      removeTagsAux (fuel + 1) cs = removeTagsAux fuel cs := by
  induction fuel with
  | zero =>
    intro cs h
    have : cs = [] := List.length_eq_zero.1 (Nat.le_zero.1 h)
    rw [this]
    rfl
  | succ f ih =>
    intro cs h
    cases cs with
    | nil => rfl
    | cons c rest =>
      simp only [removeTagsAux]
      by_cases hc : c = '#'
      · rw [if_pos hc, if_pos hc]
        cases hsp : List.span goWordChar rest with
        | mk w r =>
          cases w with
          | nil =>
            rw [ih rest (by simpa using h)]
          | cons d w' =>
            have hlen : (munchSegs r).2.length ≤ f := by
              have h1 : (munchSegs r).2.length ≤ r.length :=
                munchSegsAux_snd_length r.length r
              have h2 : r.length ≤ rest.length := by
                rw [span_snd_eq rest _ r hsp]
                exact (List.dropWhile_sublist goWordChar).length_le
              have h3 : rest.length + 1 ≤ f + 1 := by simpa using h
              omega
            show removeTagsAux (f + 1) (munchSegs r).2 =
              removeTagsAux f (munchSegs r).2
            exact ih _ hlen
      · rw [if_neg hc, if_neg hc]
        rw [ih rest (by simpa using h)]

theorem removeTagsAux_eq_removeTags (fuel : Nat) (cs : List Char)
    (h : cs.length ≤ fuel) : removeTagsAux fuel cs = removeTags cs := by
  induction fuel with
  | zero =>
    have hnil : cs = [] := List.length_eq_zero.1 (Nat.le_zero.1 h)
    subst hnil
    rfl
  | succ f ih =>
    by_cases hf : cs.length ≤ f
    · rw [removeTagsAux_fuel_succ f cs hf]
      exact ih hf
    · have hl : cs.length = f + 1 := by omega
      rw [removeTags, hl]

theorem removeMarkerAux_fuel_succ (mk : Char) (fuel : Nat) :
    ∀ cs, cs.length ≤ fuel →
      removeMarkerAux mk (fuel + 1) cs = removeMarkerAux mk fuel cs := by
  induction fuel with
  | zero =>
    intro cs h
    have : cs = [] := List.length_eq_zero.1 (Nat.le_zero.1 h)
    rw [this]
    rfl
  | succ f ih =>
    intro cs h
    cases cs with
    | nil => rfl
    | cons c rest =>
      simp only [removeMarkerAux]
      by_cases hc : c = mk
      · rw [if_pos hc, if_pos hc]
        cases htd : tryDateShape (rest.dropWhile goReSpace) with
        | none =>
          rw [ih rest (by simpa using h)]
        | some ds =>
          have hlen : ((rest.dropWhile goReSpace).drop 10).length ≤ f := by
            have h1 : (rest.dropWhile goReSpace).length ≤ rest.length :=
              (List.dropWhile_sublist goReSpace).length_le
            have h2 := List.length_drop 10 (rest.dropWhile goReSpace)
            have h3 : rest.length + 1 ≤ f + 1 := by simpa using h
            omega
          rw [ih _ hlen]
      · rw [if_neg hc, if_neg hc]
        rw [ih rest (by simpa using h)]

theorem removeMarkerAux_eq_removeMarker (mk : Char) (fuel : Nat)
    (cs : List Char) (h : cs.length ≤ fuel) :
    removeMarkerAux mk fuel cs = removeMarker mk cs := by
  induction fuel with
  | zero =>
    have hnil : cs = [] := List.length_eq_zero.1 (Nat.le_zero.1 h)
    subst hnil
    rfl
  | succ f ih =>
    by_cases hf : cs.length ≤ f
    · rw [removeMarkerAux_fuel_succ mk f cs hf]
      exact ih hf
    · have hl : cs.length = f + 1 := by omega
      rw [removeMarker, hl]

theorem digitVal_le_9 (c : Char) : digitVal c ≤ 9 := by
  unfold digitVal
  split <;> omega

theorem goDigit_digitChar (n : Nat) : goDigit (digitChar n) = true := by
  unfold digitChar
  split <;> decide

theorem digitVal_digitChar (n : Nat) (h : n ≤ 9) :
    digitVal (digitChar n) = n := by
  interval_cases n <;> rfl

theorem digitChar_not_props (n : Nat) :
    goReSpace (digitChar n) = false ∧ goUnicodeSpace (digitChar n) = false ∧
    digitChar n ≠ '#' ∧ digitChar n ≠ calChar ∧ digitChar n ≠ checkChar := by
  unfold digitChar
  split <;> exact ⟨by decide, by decide, by decide, by decide, by decide⟩

theorem wfTagAux_chars (n : Nat) :
    ∀ (l : List Char), l.length ≤ n → wfTagAux l = true →
      ∀ c ∈ l, goWordChar c = true ∨ c = '/' := by
  induction n with
  | zero =>
    intro l hl _ c hc
    have hnil : l = [] := List.length_eq_zero.1 (Nat.le_zero.1 hl)
    rw [hnil] at hc
    exact absurd hc (List.not_mem_nil c)
  | succ m ih =>
    intro l hl hwf c hc
    cases l with
    | nil => exact absurd hc (List.not_mem_nil c)
    | cons a t =>
      cases t with
      | nil =>
        simp only [List.mem_singleton] at hc
        rw [hc]
        exact Or.inl hwf
      | cons d rest =>
        by_cases ha : goWordChar a = true
        · rw [show wfTagAux (a :: d :: rest) =
            (if goWordChar a = true then wfTagAux (d :: rest)
             else if a = '/' then goWordChar d && wfTagAux rest
             else false) from rfl, if_pos ha] at hwf
          rcases List.mem_cons.1 hc with hca | hct
          · rw [hca]; exact Or.inl ha
          · exact ih (d :: rest) (by simp at hl ⊢; omega) hwf c hct
        · rw [show wfTagAux (a :: d :: rest) =
            (if goWordChar a = true then wfTagAux (d :: rest)
             else if a = '/' then goWordChar d && wfTagAux rest
             else false) from rfl, if_neg ha] at hwf
          by_cases ha2 : a = '/'
          · rw [if_pos ha2, Bool.and_eq_true] at hwf
            rcases List.mem_cons.1 hc with hca | hct
            · rw [hca, ha2]; exact Or.inr rfl
            · rcases List.mem_cons.1 hct with hcd | hcr
              · rw [hcd]; exact Or.inl hwf.1
              · exact ih rest (by simp at hl ⊢; omega) hwf.2 c hcr
          · rw [if_neg ha2] at hwf
            exact absurd hwf (by simp)

theorem wfTag_chars (tg : List Char) (h : wfTag tg = true) :
    ∀ c ∈ tg, c = '#' ∨ goWordChar c = true ∨ c = '/' := by
  intro c hc
  cases tg with
  | nil => exact absurd hc (List.not_mem_nil c)
  | cons a t =>
    cases t with
    | nil => exact absurd h (by simp [wfTag])
    | cons d rest =>
      simp only [wfTag, Bool.and_eq_true, beq_iff_eq] at h
      obtain ⟨ha, hd, hrest⟩ := h
      rcases List.mem_cons.1 hc with h1 | h2
      · rw [h1]; exact Or.inl ha
      · rcases List.mem_cons.1 h2 with h3 | h4
        · rw [h3]; exact Or.inr (Or.inl hd)
        · rcases wfTagAux_chars rest.length rest le_rfl hrest c h4 with h5 | h5
          · exact Or.inr (Or.inl h5)
          · exact Or.inr (Or.inr h5)

theorem takeWhile_append_sat (p : Char → Bool) (a b : List Char)
    (ha : ∀ c ∈ a, p c = true) :
    (a ++ b).takeWhile p = a ++ b.takeWhile p := by
  induction a with
  | nil => rfl
  | cons c a' ih =>
    rw [List.cons_append,
      List.takeWhile_cons_of_pos (ha c (List.mem_cons_self _ _)),
      ih (fun d hd => ha d (List.mem_cons_of_mem _ hd)), List.cons_append]

theorem dropWhile_append_sat (p : Char → Bool) (a b : List Char)
    (ha : ∀ c ∈ a, p c = true) :
    (a ++ b).dropWhile p = b.dropWhile p := by
  induction a with
  | nil => rfl
  | cons c a' ih =>
    rw [List.cons_append,
      List.dropWhile_cons_of_pos (ha c (List.mem_cons_self _ _)),
      ih (fun d hd => ha d (List.mem_cons_of_mem _ hd))]

theorem wfSegs_dropWhile (n : Nat) :
    ∀ (l : List Char), l.length ≤ n → wfTagAux l = true →
      wfSegs (l.dropWhile goWordChar) = true := by
  induction n with
  | zero =>
    intro l hl _
    have hnil : l = [] := List.length_eq_zero.1 (Nat.le_zero.1 hl)
    rw [hnil]
    rfl
  | succ m ih =>
    intro l hl hwf
    cases l with
    | nil => rfl
    | cons a t =>
      by_cases ha : goWordChar a = true
      · rw [List.dropWhile_cons_of_pos ha]
        cases t with
        | nil => rfl
        | cons d rest =>
          rw [show wfTagAux (a :: d :: rest) =
            (if goWordChar a = true then wfTagAux (d :: rest)
             else if a = '/' then goWordChar d && wfTagAux rest
             else false) from rfl, if_pos ha] at hwf
          exact ih (d :: rest) (by simp at hl ⊢; omega) hwf
      · rw [List.dropWhile_cons_of_neg ha]
        cases t with
        | nil =>
          exact absurd hwf (by simp [wfTagAux, ha])
        | cons d rest =>
          rw [show wfTagAux (a :: d :: rest) =
            (if goWordChar a = true then wfTagAux (d :: rest)
             else if a = '/' then goWordChar d && wfTagAux rest
             else false) from rfl, if_neg ha] at hwf
          by_cases ha2 : a = '/'
          · rw [ha2]
            rw [if_pos ha2] at hwf
            exact hwf
          · rw [if_neg ha2] at hwf
            exact absurd hwf (by simp)

theorem wfSegs_shape (z : List Char) (h : wfSegs z = true) :
    z = [] ∨ ∃ d rest, z = '/' :: d :: rest ∧ goWordChar d = true ∧
      wfTagAux rest = true := by
  cases z with
  | nil => exact Or.inl rfl
  | cons a t =>
    cases t with
    | nil => exact absurd h (by simp [wfSegs])
    | cons d rest =>
      simp only [wfSegs, Bool.and_eq_true, beq_iff_eq] at h
      obtain ⟨ha, hd, hr⟩ := h
      refine Or.inr ⟨d, rest, ?_, hd, hr⟩
      rw [ha]

theorem munchSegsAux_wfSegs (fuel : Nat) :
    ∀ z s, z.length ≤ fuel → wfSegs z = true → tagBoundary s →
      munchSegsAux fuel (z ++ s) = (z, s) := by
  induction fuel with
  | zero =>
    intro z s hl _ hb
    have hz : z = [] := List.length_eq_zero.1 (Nat.le_zero.1 hl)
    subst hz
    rfl
  | succ f ih =>
    intro z s hl hwf hb
    rcases wfSegs_shape z hwf with hz | ⟨d, rest, hz, hd, hrest⟩
    · subst hz
      cases s with
      | nil => rfl
      | cons c s' =>
        obtain ⟨hbw, hbs⟩ := hb
        simp only [List.nil_append, munchSegsAux]
        rw [if_neg hbs]
    · subst hz
      have hw1 : ∀ c ∈ rest.takeWhile goWordChar, goWordChar c = true :=
        fun c hc => List.mem_takeWhile_imp hc
      have hz1 : wfSegs (rest.dropWhile goWordChar) = true :=
        wfSegs_dropWhile rest.length rest le_rfl hrest
      have htw : List.takeWhile goWordChar (rest.dropWhile goWordChar ++ s) =
          [] := by
        rcases wfSegs_shape _ hz1 with h0 | ⟨d', r', h0, hw', hr'⟩
        · rw [h0, List.nil_append]
          cases s with
          | nil => rfl
          | cons c s' => exact List.takeWhile_cons_of_neg (by simp [hb.1])
        · rw [h0]
          simp only [List.cons_append]
          exact List.takeWhile_cons_of_neg (by decide)
      have hdw : List.dropWhile goWordChar (rest.dropWhile goWordChar ++ s) =
          rest.dropWhile goWordChar ++ s := by
        rcases wfSegs_shape _ hz1 with h0 | ⟨d', r', h0, hw', hr'⟩
        · rw [h0, List.nil_append]
          cases s with
          | nil => rfl
          | cons c s' => exact List.dropWhile_cons_of_neg (by simp [hb.1])
        · rw [h0]
          simp only [List.cons_append]
          exact List.dropWhile_cons_of_neg (by decide)
      have hspan : List.span goWordChar (d :: (rest ++ s)) =
          (d :: rest.takeWhile goWordChar, rest.dropWhile goWordChar ++ s) := by
        rw [List.span_eq_take_drop]
        refine Prod.ext ?_ ?_
        · show List.takeWhile goWordChar (d :: (rest ++ s)) =
            d :: rest.takeWhile goWordChar
          rw [List.takeWhile_cons_of_pos hd]
          conv_lhs =>
            rw [← List.takeWhile_append_dropWhile goWordChar rest,
              List.append_assoc, takeWhile_append_sat goWordChar _ _ hw1, htw,
              List.append_nil]
        · show List.dropWhile goWordChar (d :: (rest ++ s)) =
            rest.dropWhile goWordChar ++ s
          rw [List.dropWhile_cons_of_pos hd]
          conv_lhs =>
            rw [← List.takeWhile_append_dropWhile goWordChar rest,
              List.append_assoc, dropWhile_append_sat goWordChar _ _ hw1, hdw]
      have hlen : (rest.dropWhile goWordChar).length ≤ f := by
        have h1 := (List.dropWhile_sublist goWordChar (l := rest)).length_le
        simp only [List.length_cons] at hl
        omega
      rw [List.cons_append, List.cons_append]
      simp only [munchSegsAux, if_true]
      rw [hspan]
      show ('/' :: (d :: rest.takeWhile goWordChar ++
          (munchSegsAux f (rest.dropWhile goWordChar ++ s)).1),
        (munchSegsAux f (rest.dropWhile goWordChar ++ s)).2) =
        ('/' :: d :: rest, s)
      rw [ih (rest.dropWhile goWordChar) s hlen hz1 hb]
      rw [List.cons_append, List.takeWhile_append_dropWhile]

theorem findTags_append_no_hash (a b : List Char) (ha : ('#' : Char) ∉ a) :
    findTags (a ++ b) = findTags b := by
  induction a with
  | nil => rfl
  | cons c a' ih =>
    have hc : c ≠ '#' := fun h => ha (by rw [h]; exact List.mem_cons_self _ _)
    rw [List.cons_append]
    show findTagsAux (c :: (a' ++ b)).length (c :: (a' ++ b)) = findTags b
    rw [show (c :: (a' ++ b)).length = (a' ++ b).length + 1 from rfl]
    simp only [findTagsAux]
    rw [if_neg hc, findTagsAux_eq_findTags _ _ le_rfl]
    exact ih (fun h => ha (List.mem_cons_of_mem _ h))

theorem findTags_no_hash (a : List Char) (ha : ('#' : Char) ∉ a) :
    findTags a = [] := by
  have h := findTags_append_no_hash a [] ha
  rw [List.append_nil] at h
  rw [h]
  rfl

theorem removeTags_append_no_hash (a b : List Char) (ha : ('#' : Char) ∉ a) :
    removeTags (a ++ b) = a ++ removeTags b := by
  induction a with
  | nil => rfl
  | cons c a' ih =>
    have hc : c ≠ '#' := fun h => ha (by rw [h]; exact List.mem_cons_self _ _)
    rw [List.cons_append]
    show removeTagsAux (c :: (a' ++ b)).length (c :: (a' ++ b)) =
      (c :: a') ++ removeTags b
    rw [show (c :: (a' ++ b)).length = (a' ++ b).length + 1 from rfl]
    simp only [removeTagsAux]
    rw [if_neg hc, removeTagsAux_eq_removeTags _ _ le_rfl,
      ih (fun h => ha (List.mem_cons_of_mem _ h)), List.cons_append]

theorem removeTags_no_hash (a : List Char) (ha : ('#' : Char) ∉ a) :
    removeTags a = a := by
  have h := removeTags_append_no_hash a [] ha
  rw [List.append_nil] at h
  rw [h, show removeTags [] = [] from rfl, List.append_nil]

theorem findTags_cons_tag (tg s : List Char) (hw : wfTag tg = true)
    (hb : tagBoundary s) :
    findTags (tg ++ s) = String.mk tg :: findTags s := by
  cases tg with
  | nil => exact absurd hw (by simp [wfTag])
  | cons a t =>
    cases t with
    | nil => exact absurd hw (by simp [wfTag])
    | cons d body =>
      simp only [wfTag, Bool.and_eq_true, beq_iff_eq] at hw
      obtain ⟨ha, hd, hbody⟩ := hw
      subst ha
      have hw1 : ∀ c ∈ body.takeWhile goWordChar, goWordChar c = true :=
        fun c hc => List.mem_takeWhile_imp hc
      have hz1 : wfSegs (body.dropWhile goWordChar) = true :=
        wfSegs_dropWhile body.length body le_rfl hbody
      have htw : List.takeWhile goWordChar (body.dropWhile goWordChar ++ s) =
          [] := by
        rcases wfSegs_shape _ hz1 with h0 | ⟨d', r', h0, hw', hr'⟩
        · rw [h0, List.nil_append]
          cases s with
          | nil => rfl
          | cons c s' => exact List.takeWhile_cons_of_neg (by simp [hb.1])
        · rw [h0]
          simp only [List.cons_append]
          exact List.takeWhile_cons_of_neg (by decide)
      have hdw : List.dropWhile goWordChar (body.dropWhile goWordChar ++ s) =
          body.dropWhile goWordChar ++ s := by
        rcases wfSegs_shape _ hz1 with h0 | ⟨d', r', h0, hw', hr'⟩
        · rw [h0, List.nil_append]
          cases s with
          | nil => rfl
          | cons c s' => exact List.dropWhile_cons_of_neg (by simp [hb.1])
        · rw [h0]
          simp only [List.cons_append]
          exact List.dropWhile_cons_of_neg (by decide)
      have hspan : List.span goWordChar (d :: (body ++ s)) =
          (d :: body.takeWhile goWordChar, body.dropWhile goWordChar ++ s) := by
        rw [List.span_eq_take_drop]
        refine Prod.ext ?_ ?_
        · show List.takeWhile goWordChar (d :: (body ++ s)) =
            d :: body.takeWhile goWordChar
          rw [List.takeWhile_cons_of_pos hd]
          conv_lhs =>
            rw [← List.takeWhile_append_dropWhile goWordChar body,
              List.append_assoc, takeWhile_append_sat goWordChar _ _ hw1, htw,
              List.append_nil]
        · show List.dropWhile goWordChar (d :: (body ++ s)) =
            body.dropWhile goWordChar ++ s
          rw [List.dropWhile_cons_of_pos hd]
          conv_lhs =>
            rw [← List.takeWhile_append_dropWhile goWordChar body,
              List.append_assoc, dropWhile_append_sat goWordChar _ _ hw1, hdw]
      have hm : munchSegs (body.dropWhile goWordChar ++ s) =
          (body.dropWhile goWordChar, s) := by
        rw [munchSegs]
        exact munchSegsAux_wfSegs _ _ _ (by simp) hz1 hb
      rw [List.cons_append, List.cons_append]
      show findTagsAux ('#' :: d :: (body ++ s)).length
        ('#' :: d :: (body ++ s)) = _
      rw [show ('#' :: d :: (body ++ s)).length =
        (d :: (body ++ s)).length + 1 from rfl]
      simp only [findTagsAux, if_true]
      rw [hspan]
      show String.mk ('#' :: (d :: body.takeWhile goWordChar ++
          (munchSegs (body.dropWhile goWordChar ++ s)).1)) ::
        findTagsAux (d :: (body ++ s)).length
          (munchSegs (body.dropWhile goWordChar ++ s)).2 = _
      rw [hm]
      rw [findTagsAux_eq_findTags _ s (by simp; omega)]
      rw [List.cons_append, List.takeWhile_append_dropWhile]

theorem removeTags_cons_tag (tg s : List Char) (hw : wfTag tg = true)
    (hb : tagBoundary s) :
    removeTags (tg ++ s) = removeTags s := by
  cases tg with
  | nil => exact absurd hw (by simp [wfTag])
  | cons a t =>
    cases t with
    | nil => exact absurd hw (by simp [wfTag])
    | cons d body =>
      simp only [wfTag, Bool.and_eq_true, beq_iff_eq] at hw
      obtain ⟨ha, hd, hbody⟩ := hw
      subst ha
      have hw1 : ∀ c ∈ body.takeWhile goWordChar, goWordChar c = true :=
        fun c hc => List.mem_takeWhile_imp hc
      have hz1 : wfSegs (body.dropWhile goWordChar) = true :=
        wfSegs_dropWhile body.length body le_rfl hbody
      have htw : List.takeWhile goWordChar (body.dropWhile goWordChar ++ s) =
          [] := by
        rcases wfSegs_shape _ hz1 with h0 | ⟨d', r', h0, hw', hr'⟩
        · rw [h0, List.nil_append]
          cases s with
          | nil => rfl
          | cons c s' => exact List.takeWhile_cons_of_neg (by simp [hb.1])
        · rw [h0]
          simp only [List.cons_append]
          exact List.takeWhile_cons_of_neg (by decide)
      have hdw : List.dropWhile goWordChar (body.dropWhile goWordChar ++ s) =
          body.dropWhile goWordChar ++ s := by
        rcases wfSegs_shape _ hz1 with h0 | ⟨d', r', h0, hw', hr'⟩
        · rw [h0, List.nil_append]
          cases s with
          | nil => rfl
          | cons c s' => exact List.dropWhile_cons_of_neg (by simp [hb.1])
        · rw [h0]
          simp only [List.cons_append]
          exact List.dropWhile_cons_of_neg (by decide)
      have hspan : List.span goWordChar (d :: (body ++ s)) =
          (d :: body.takeWhile goWordChar, body.dropWhile goWordChar ++ s) := by
        rw [List.span_eq_take_drop]
        refine Prod.ext ?_ ?_
        · show List.takeWhile goWordChar (d :: (body ++ s)) =
            d :: body.takeWhile goWordChar
          rw [List.takeWhile_cons_of_pos hd]
          conv_lhs =>
            rw [← List.takeWhile_append_dropWhile goWordChar body,
              List.append_assoc, takeWhile_append_sat goWordChar _ _ hw1, htw,
              List.append_nil]
        · show List.dropWhile goWordChar (d :: (body ++ s)) =
            body.dropWhile goWordChar ++ s
          rw [List.dropWhile_cons_of_pos hd]
          conv_lhs =>
            rw [← List.takeWhile_append_dropWhile goWordChar body,
              List.append_assoc, dropWhile_append_sat goWordChar _ _ hw1, hdw]
      have hm : munchSegs (body.dropWhile goWordChar ++ s) =
          (body.dropWhile goWordChar, s) := by
        rw [munchSegs]
        exact munchSegsAux_wfSegs _ _ _ (by simp) hz1 hb
      rw [List.cons_append, List.cons_append]
      show removeTagsAux ('#' :: d :: (body ++ s)).length
        ('#' :: d :: (body ++ s)) = _
      rw [show ('#' :: d :: (body ++ s)).length =
        (d :: (body ++ s)).length + 1 from rfl]
      simp only [removeTagsAux, if_true]
      rw [hspan]
      show removeTagsAux (d :: (body ++ s)).length
        (munchSegs (body.dropWhile goWordChar ++ s)).2 = _
      rw [hm]
      exact removeTagsAux_eq_removeTags _ s (by simp; omega)

theorem findMarker_append_no_mk (mk : Char) (a b : List Char) (ha : mk ∉ a) :
    findMarker mk (a ++ b) = findMarker mk b := by
  induction a with
  | nil => rfl
  | cons c a' ih =>
    have hc : c ≠ mk := fun h => ha (by rw [← h]; exact List.mem_cons_self _ _)
    rw [List.cons_append, findMarker, if_neg hc]
    exact ih (fun h => ha (List.mem_cons_of_mem _ h))

theorem fmt_not_special (dt : Date) (c : Char) (hc : c ∈ fmtDateChars dt) :
    c ≠ '#' ∧ c ≠ calChar ∧ c ≠ checkChar ∧ goReSpace c = false ∧
      goUnicodeSpace c = false := by
  simp only [fmtDateChars, List.mem_cons, List.not_mem_nil, or_false] at hc
  rcases hc with h | h | h | h | h | h | h | h | h | h <;> subst h <;>
    first
    | exact ⟨(digitChar_not_props _).2.2.1, (digitChar_not_props _).2.2.2.1,
        (digitChar_not_props _).2.2.2.2, (digitChar_not_props _).1,
        (digitChar_not_props _).2.1⟩
    | exact ⟨by decide, by decide, by decide, by decide, by decide⟩

theorem tryDateShape_fmt (dt : Date) (s : List Char) :
    tryDateShape (fmtDateChars dt ++ s) = some (fmtDateChars dt) := by
  simp only [fmtDateChars, List.cons_append, List.nil_append]
  simp only [tryDateShape]
  rw [if_pos ⟨goDigit_digitChar _, goDigit_digitChar _, goDigit_digitChar _,
    goDigit_digitChar _, goDigit_digitChar _, goDigit_digitChar _,
    goDigit_digitChar _, goDigit_digitChar _⟩]

theorem dropWhile_space_marker (dt : Date) (s : List Char) :
    (' ' :: (fmtDateChars dt ++ s)).dropWhile goReSpace =
      fmtDateChars dt ++ s := by
  rw [List.dropWhile_cons_of_pos (by decide)]
  simp only [fmtDateChars, List.cons_append]
  exact List.dropWhile_cons_of_neg (by simp [(digitChar_not_props _).1])

theorem findMarker_at_marker (mk : Char) (dt : Date) (s : List Char) :
    findMarker mk (mk :: ' ' :: (fmtDateChars dt ++ s)) =
      some (fmtDateChars dt) := by
  rw [findMarker, if_pos rfl, dropWhile_space_marker, tryDateShape_fmt]

theorem removeMarker_append_no_mk (mk : Char) (a b : List Char) (ha : mk ∉ a) :
    removeMarker mk (a ++ b) = a ++ removeMarker mk b := by
  induction a with
  | nil => rfl
  | cons c a' ih =>
    have hc : c ≠ mk := fun h => ha (by rw [← h]; exact List.mem_cons_self _ _)
    rw [List.cons_append]
    show removeMarkerAux mk (c :: (a' ++ b)).length (c :: (a' ++ b)) =
      (c :: a') ++ removeMarker mk b
    rw [show (c :: (a' ++ b)).length = (a' ++ b).length + 1 from rfl]
    simp only [removeMarkerAux]
    rw [if_neg hc, removeMarkerAux_eq_removeMarker mk _ _ le_rfl,
      ih (fun h => ha (List.mem_cons_of_mem _ h)), List.cons_append]

theorem removeMarker_no_mk (mk : Char) (a : List Char) (ha : mk ∉ a) :
    removeMarker mk a = a := by
  have h := removeMarker_append_no_mk mk a [] ha
  rw [List.append_nil] at h
  rw [h, show removeMarker mk [] = [] from rfl, List.append_nil]

theorem removeMarkerAux_cons (mk c : Char) (fuel : Nat) (rest : List Char) :
    removeMarkerAux mk (fuel + 1) (c :: rest) =
      if c = mk then
        match tryDateShape (rest.dropWhile goReSpace) with
        | some _ => removeMarkerAux mk fuel ((rest.dropWhile goReSpace).drop 10)
        | none => c :: removeMarkerAux mk fuel rest
      else c :: removeMarkerAux mk fuel rest := rfl

theorem removeMarker_at_marker (mk : Char) (dt : Date) (s : List Char) :
    removeMarker mk (mk :: ' ' :: (fmtDateChars dt ++ s)) =
      removeMarker mk s := by
  show removeMarkerAux mk (mk :: ' ' :: (fmtDateChars dt ++ s)).length
    (mk :: ' ' :: (fmtDateChars dt ++ s)) = _
  rw [show (mk :: ' ' :: (fmtDateChars dt ++ s)).length =
    (' ' :: (fmtDateChars dt ++ s)).length + 1 from rfl]
  rw [removeMarkerAux_cons, if_pos rfl, dropWhile_space_marker,
    tryDateShape_fmt]
  show removeMarkerAux mk (' ' :: (fmtDateChars dt ++ s)).length
    ((fmtDateChars dt ++ s).drop 10) = _
  rw [show (10 : Nat) = (fmtDateChars dt).length from rfl, List.drop_left]
  exact removeMarkerAux_eq_removeMarker mk _ s (by simp [fmtDateChars]; omega)

theorem goReSpace_uni (c : Char) (h : goReSpace c = true) :
    goUnicodeSpace c = true := by
  simp only [goReSpace, decide_eq_true_eq] at h
  simp only [goUnicodeSpace, decide_eq_true_eq]
  rcases h with h | h | h | h | h
  · exact Or.inl h
  · exact Or.inr (Or.inl h)
  · exact Or.inr (Or.inr (Or.inl h))
  · exact Or.inr (Or.inr (Or.inr (Or.inr (Or.inl h))))
  · exact Or.inr (Or.inr (Or.inr (Or.inr (Or.inr (Or.inl h)))))

theorem goReSpace_ne (c : Char) (h : goReSpace c = true) :
    c ≠ '#' ∧ c ≠ calChar ∧ c ≠ checkChar := by
  simp only [goReSpace, decide_eq_true_eq] at h
  rcases h with h | h | h | h | h
  · subst h; exact ⟨by decide, by decide, by decide⟩
  · subst h; exact ⟨by decide, by decide, by decide⟩
  · subst h; exact ⟨by decide, by decide, by decide⟩
  · exact ⟨fun hc => by rw [hc] at h; exact absurd h (by decide),
      fun hc => by rw [hc] at h; exact absurd h (by decide),
      fun hc => by rw [hc] at h; exact absurd h (by decide)⟩
  · subst h; exact ⟨by decide, by decide, by decide⟩

theorem wordChar_not_special (c : Char) (h : goWordChar c = true) :
    c ≠ calChar ∧ c ≠ checkChar ∧ c ≠ '\n' ∧ c ≠ ' ' := by
  refine ⟨?_, ?_, ?_, ?_⟩ <;> intro hc <;> rw [hc] at h <;>
    exact absurd h (by decide)

theorem tag_chars_not_special (tg : List Char) (hw : wfTag tg = true) :
    ∀ c ∈ tg, c ≠ calChar ∧ c ≠ checkChar ∧ c ≠ '\n' := by
  intro c hc
  rcases wfTag_chars tg hw c hc with h | h | h
  · subst h; exact ⟨by decide, by decide, by decide⟩
  · exact ⟨(wordChar_not_special c h).1, (wordChar_not_special c h).2.1,
      (wordChar_not_special c h).2.2.1⟩
  · subst h; exact ⟨by decide, by decide, by decide⟩

theorem munchSegsAux_snd_sublist (fuel : Nat) :
    ∀ cs : List Char, List.Sublist (munchSegsAux fuel cs).2 cs := by
  induction fuel with
  | zero => intro cs; exact List.Sublist.refl cs
  | succ n ih =>
    intro cs
    cases cs with
    | nil => exact List.Sublist.refl []
    | cons c rest =>
      simp only [munchSegsAux]
      by_cases hc : c = '/'
      · rw [if_pos hc]
        cases hsp : List.span goWordChar rest with
        | mk w r =>
          cases w with
          | nil => exact List.Sublist.refl _
          | cons d w' =>
            show List.Sublist (munchSegsAux n r).2 (c :: rest)
            have hr : List.Sublist r rest := by
              rw [span_snd_eq rest (d :: w') r hsp]
              exact List.dropWhile_sublist _
            exact ((ih r).trans hr).cons c
      · rw [if_neg hc]

theorem removeTagsAux_sublist (fuel : Nat) :
    ∀ cs : List Char, List.Sublist (removeTagsAux fuel cs) cs := by
  induction fuel with
  | zero => intro cs; exact List.Sublist.refl cs
  | succ n ih =>
    intro cs
    cases cs with
    | nil => exact List.Sublist.refl []
    | cons c rest =>
      simp only [removeTagsAux]
      by_cases hc : c = '#'
      · rw [if_pos hc]
        cases hsp : List.span goWordChar rest with
        | mk w r =>
          cases w with
          | nil => exact (ih rest).cons₂ c
          | cons d w' =>
            show List.Sublist (removeTagsAux n (munchSegs r).2) (c :: rest)
            have hr : List.Sublist r rest := by
              rw [span_snd_eq rest (d :: w') r hsp]
              exact List.dropWhile_sublist _
            exact ((ih _).trans
              ((munchSegsAux_snd_sublist r.length r).trans hr)).cons c
      · rw [if_neg hc]
        exact (ih rest).cons₂ c

theorem removeTags_sublist (cs : List Char) :
    List.Sublist (removeTags cs) cs :=
  removeTagsAux_sublist cs.length cs

theorem removeMarkerAux_sublist (mk : Char) (fuel : Nat) :
    ∀ cs : List Char, List.Sublist (removeMarkerAux mk fuel cs) cs := by
  induction fuel with
  | zero => intro cs; exact List.Sublist.refl cs
  | succ n ih =>
    intro cs
    cases cs with
    | nil => exact List.Sublist.refl []
    | cons c rest =>
      rw [removeMarkerAux_cons]
      by_cases hc : c = mk
      · rw [if_pos hc]
        cases hds : tryDateShape (rest.dropWhile goReSpace) with
        | none => exact (ih rest).cons₂ c
        | some ds =>
          show List.Sublist
            (removeMarkerAux mk n ((rest.dropWhile goReSpace).drop 10))
            (c :: rest)
          exact ((ih _).trans ((List.drop_sublist _ _).trans
            (List.dropWhile_sublist _))).cons c
      · rw [if_neg hc]
        exact (ih rest).cons₂ c

theorem removeMarker_sublist (mk : Char) (cs : List Char) :
    List.Sublist (removeMarker mk cs) cs :=
  removeMarkerAux_sublist mk cs.length cs

theorem trimRightUni_sublist (cs : List Char) :
    List.Sublist (trimRightUni cs) cs := by
  have h : List.Sublist (cs.reverse.dropWhile goUnicodeSpace) cs.reverse :=
    List.dropWhile_sublist _
  have h2 := h.reverse
  rwa [List.reverse_reverse] at h2

theorem goTrimSpace_sublist (cs : List Char) :
    List.Sublist (goTrimSpace cs) cs :=
  (trimRightUni_sublist _).trans (List.dropWhile_sublist _)

theorem dropWhile_all_sat (p : Char → Bool) (sp : List Char)
    (h : ∀ c ∈ sp, p c = true) : sp.dropWhile p = [] := by
  have h2 := dropWhile_append_sat p sp [] h
  rwa [List.append_nil] at h2

theorem goTrimSpace_prepend_spaces (sp a : List Char)
    (h : ∀ c ∈ sp, goUnicodeSpace c = true) :
    goTrimSpace (sp ++ a) = goTrimSpace a := by
  show trimRightUni (List.dropWhile goUnicodeSpace (sp ++ a)) = _
  rw [dropWhile_append_sat goUnicodeSpace sp a h]
  rfl

theorem trimRightUni_append_spaces (a sp : List Char)
    (h : ∀ c ∈ sp, goUnicodeSpace c = true) :
    trimRightUni (a ++ sp) = trimRightUni a := by
  show (List.dropWhile goUnicodeSpace (a ++ sp).reverse).reverse = _
  rw [List.reverse_append, dropWhile_append_sat goUnicodeSpace sp.reverse
    a.reverse (fun c hc => h c (List.mem_reverse.1 hc))]
  rfl

theorem goTrimSpace_append_spaces (a sp : List Char)
    (h : ∀ c ∈ sp, goUnicodeSpace c = true) :
    goTrimSpace (a ++ sp) = goTrimSpace a := by
  show trimRightUni (List.dropWhile goUnicodeSpace (a ++ sp)) =
    trimRightUni (List.dropWhile goUnicodeSpace a)
  rw [List.dropWhile_append]
  by_cases he : (List.dropWhile goUnicodeSpace a).isEmpty = true
  · rw [if_pos he, dropWhile_all_sat goUnicodeSpace sp h]
    rw [List.isEmpty_iff] at he
    rw [he]
  · rw [if_neg he]
    exact trimRightUni_append_spaces _ sp h

theorem head_not_sat_of_dropWhile_self (p : Char → Bool) (c : Char)
    (t : List Char) (h : List.dropWhile p (c :: t) = c :: t) : p c = false := by
  by_contra hb
  rw [Bool.not_eq_false] at hb
  rw [List.dropWhile_cons_of_pos hb] at h
  have hlen := congrArg List.length h
  simp at hlen
  have hle : (List.dropWhile p t).length ≤ t.length :=
    (List.dropWhile_sublist p).length_le
  omega

theorem dropWhile_of_dropWhile_append (p : Char → Bool) (y s : List Char)
    (h : List.dropWhile p (y ++ s) = y ++ s) : List.dropWhile p y = y := by
  cases y with
  | nil => rfl
  | cons c t =>
    have hc : p c = false := by
      refine head_not_sat_of_dropWhile_self p c (t ++ s) ?_
      rw [← List.cons_append]
      exact h
    rw [List.dropWhile_cons_of_neg (by simp [hc])]

theorem trimRightUni_idem (x : List Char) :
    trimRightUni (trimRightUni x) = trimRightUni x := by
  show ((trimRightUni x).reverse.dropWhile goUnicodeSpace).reverse = _
  rw [trimRightUni, List.reverse_reverse, List.dropWhile_idempotent]

theorem goTrimSpace_idem (a : List Char) :
    goTrimSpace (goTrimSpace a) = goTrimSpace a := by
  have hsplit : (trimLeftUni a).reverse.takeWhile goUnicodeSpace ++
      (trimLeftUni a).reverse.dropWhile goUnicodeSpace =
      (trimLeftUni a).reverse :=
    List.takeWhile_append_dropWhile goUnicodeSpace (trimLeftUni a).reverse
  have h2 := congrArg List.reverse hsplit
  rw [List.reverse_append, List.reverse_reverse] at h2
  have h3 : goTrimSpace a ++
      ((trimLeftUni a).reverse.takeWhile goUnicodeSpace).reverse =
      trimLeftUni a := h2
  have hx : List.dropWhile goUnicodeSpace (trimLeftUni a) = trimLeftUni a :=
    List.dropWhile_idempotent goUnicodeSpace a
  have hy : List.dropWhile goUnicodeSpace (goTrimSpace a) = goTrimSpace a := by
    refine dropWhile_of_dropWhile_append goUnicodeSpace (goTrimSpace a)
      ((trimLeftUni a).reverse.takeWhile goUnicodeSpace).reverse ?_
    rw [h3]
    exact hx
  show trimRightUni (List.dropWhile goUnicodeSpace (goTrimSpace a)) =
    goTrimSpace a
  rw [hy]
  show trimRightUni (trimRightUni (trimLeftUni a)) = _
  exact trimRightUni_idem _

theorem daysInMonth_le_31 (y m : Nat) : daysInMonth y m ≤ 31 := by
  unfold daysInMonth
  split
  · split <;> omega
  · split <;> omega

theorem month_day_bounds (d : Date) (hv : validYMD d = true) :
    1 ≤ d.month ∧ d.month ≤ 12 ∧ 1 ≤ d.day ∧ d.day ≤ 31 := by
  simp only [validYMD, decide_eq_true_eq] at hv
  obtain ⟨h1, h2, h3, h4⟩ := hv
  exact ⟨h1, h2, h3, le_trans h4 (daysInMonth_le_31 _ _)⟩

theorem goParseDate_valid (cs : List Char) (d : Date)
    (h : goParseDate cs = some d) : validYMD d = true ∧ d.year ≤ 9999 := by
  unfold goParseDate at h
  split at h
  · next y1 y2 y3 y4 m1 m2 d1 d2 =>
    split at h
    · dsimp only at h
      split at h
      · next hv =>
        rw [Option.some.injEq] at h
        subst h
        refine ⟨hv, ?_⟩
        show 1000 * digitVal y1 + 100 * digitVal y2 + 10 * digitVal y3 +
          digitVal y4 ≤ 9999
        have q1 := digitVal_le_9 y1
        have q2 := digitVal_le_9 y2
        have q3 := digitVal_le_9 y3
        have q4 := digitVal_le_9 y4
        omega
      · exact absurd h (by simp)
    · exact absurd h (by simp)
  · exact absurd h (by simp)

theorem goParseDate_fmt (d : Date) (hv : validYMD d = true)
    (hy : d.year ≤ 9999) : goParseDate (fmtDateChars d) = some d := by
  obtain ⟨hm1, hm2, hd1, hd2⟩ := month_day_bounds d hv
  simp only [fmtDateChars, goParseDate]
  rw [if_pos ⟨goDigit_digitChar _, goDigit_digitChar _, goDigit_digitChar _,
    goDigit_digitChar _, goDigit_digitChar _, goDigit_digitChar _,
    goDigit_digitChar _, goDigit_digitChar _⟩]
  rw [digitVal_digitChar (d.year / 1000 % 10) (by omega),
    digitVal_digitChar (d.year / 100 % 10) (by omega),
    digitVal_digitChar (d.year / 10 % 10) (by omega),
    digitVal_digitChar (d.year % 10) (by omega),
    digitVal_digitChar (d.month / 10 % 10) (by omega),
    digitVal_digitChar (d.month % 10) (by omega),
    digitVal_digitChar (d.day / 10 % 10) (by omega),
    digitVal_digitChar (d.day % 10) (by omega)]
  have e1 : 1000 * (d.year / 1000 % 10) + 100 * (d.year / 100 % 10) +
      10 * (d.year / 10 % 10) + d.year % 10 = d.year := by omega
  have e2 : 10 * (d.month / 10 % 10) + d.month % 10 = d.month := by omega
  have e3 : 10 * (d.day / 10 % 10) + d.day % 10 = d.day := by omega
  show (if validYMD ⟨1000 * (d.year / 1000 % 10) + 100 * (d.year / 100 % 10) +
      10 * (d.year / 10 % 10) + d.year % 10,
      10 * (d.month / 10 % 10) + d.month % 10,
      10 * (d.day / 10 % 10) + d.day % 10⟩ = true
    then some ⟨1000 * (d.year / 1000 % 10) + 100 * (d.year / 100 % 10) +
      10 * (d.year / 10 % 10) + d.year % 10,
      10 * (d.month / 10 % 10) + d.month % 10,
      10 * (d.day / 10 % 10) + d.day % 10⟩
    else none) = some d
  rw [e1, e2, e3]
  rw [if_pos hv]

theorem mk_data (s : String) : String.mk s.data = s := by
  cases s
  rfl

theorem foldl_append_data (L : List String) :
    ∀ s : String, (L.foldl (fun a b => a ++ b) s).data =
      s.data ++ (L.map String.data).flatten := by
  induction L with
  | nil => intro s; simp
  | cons x L ih =>
    intro s
    show (L.foldl (fun a b => a ++ b) (s ++ x)).data = _
    rw [ih (s ++ x), String.data_append]
    simp [List.append_assoc]

theorem join_data (L : List String) :
    (String.join L).data = (L.map String.data).flatten := by
  show (L.foldl (fun a b => a ++ b) "").data = _
  rw [foldl_append_data L ""]
  rfl

theorem tagsec_data (tags : List String) :
    (String.join (tags.map (fun tag => " " ++ tag))).data =
      (tags.map (fun tg => ' ' :: tg.data)).flatten := by
  rw [join_data, List.map_map]
  induction tags with
  | nil => rfl
  | cons tg rest ih =>
    rw [List.map_cons, List.map_cons, List.flatten_cons, List.flatten_cons, ih]
    rfl

theorem findTags_cons_space (b : List Char) :
    findTags (' ' :: b) = findTags b :=
  findTags_append_no_hash [' '] b (by decide)

theorem removeTags_cons_space (b : List Char) :
    removeTags (' ' :: b) = ' ' :: removeTags b :=
  removeTags_append_no_hash [' '] b (by decide)

theorem tagsec_boundary (rest : List String) (m : List Char)
    (hb : tagBoundary m) :
    tagBoundary ((rest.map (fun tg => ' ' :: tg.data)).flatten ++ m) := by
  cases rest with
  | nil => exact hb
  | cons r rs =>
    rw [List.map_cons, List.flatten_cons, List.cons_append, List.cons_append]
    exact ⟨by decide, by decide⟩

theorem findTags_tagsec (tags : List String) (m : List Char)
    (hw : ∀ tg ∈ tags, wfTag tg.data = true) (hb : tagBoundary m) :
    findTags ((tags.map (fun tg => ' ' :: tg.data)).flatten ++ m) =
      tags ++ findTags m := by
  induction tags with
  | nil => rfl
  | cons tg rest ih =>
    rw [List.map_cons, List.flatten_cons, List.append_assoc, List.cons_append]
    rw [findTags_cons_space]
    rw [findTags_cons_tag tg.data _ (hw tg (List.mem_cons_self _ _))
      (tagsec_boundary rest m hb)]
    rw [mk_data, ih (fun u hu => hw u (List.mem_cons_of_mem _ hu))]
    rw [List.cons_append]

theorem removeTags_tagsec (tags : List String) (m : List Char)
    (hw : ∀ tg ∈ tags, wfTag tg.data = true) (hb : tagBoundary m) :
    removeTags ((tags.map (fun tg => ' ' :: tg.data)).flatten ++ m) =
      List.replicate tags.length ' ' ++ removeTags m := by
  induction tags with
  | nil => rfl
  | cons tg rest ih =>
    rw [List.map_cons, List.flatten_cons, List.append_assoc, List.cons_append]
    rw [removeTags_cons_space]
    rw [removeTags_cons_tag tg.data _ (hw tg (List.mem_cons_self _ _))
      (tagsec_boundary rest m hb)]
    rw [ih (fun u hu => hw u (List.mem_cons_of_mem _ hu))]
    rfl

theorem tagsec_chars (tags : List String)
    (hw : ∀ tg ∈ tags, wfTag tg.data = true) :
    ∀ c ∈ (tags.map (fun tg => ' ' :: tg.data)).flatten,
      c ≠ calChar ∧ c ≠ checkChar ∧ c ≠ '\n' := by
  intro c hc
  rw [List.mem_flatten] at hc
  obtain ⟨l, hl, hcl⟩ := hc
  rw [List.mem_map] at hl
  obtain ⟨tg, htg, rfl⟩ := hl
  rcases List.mem_cons.1 hcl with h | h
  · subst h; exact ⟨by decide, by decide, by decide⟩
  · exact tag_chars_not_special tg.data (hw tg htg) c h

theorem markerSec_chars (mk : Char) (dt : Date) (c : Char)
    (hc : c ∈ (' ' :: mk :: ' ' :: fmtDateChars dt)) :
    c = ' ' ∨ c = mk ∨ c ∈ fmtDateChars dt := by
  rcases List.mem_cons.1 hc with h | h
  · exact Or.inl h
  · rcases List.mem_cons.1 h with h2 | h2
    · exact Or.inr (Or.inl h2)
    · rcases List.mem_cons.1 h2 with h3 | h3
      · exact Or.inl h3
      · exact Or.inr (Or.inr h3)

theorem contains_eq_false (a : Char) (l : List Char) (h : a ∉ l) :
    l.contains a = false := by
  rw [Bool.eq_false_iff]
  intro hc
  exact h (List.elem_iff.1 hc)

theorem goParseCheckbox_shape (st : Char) (tail : List Char)
    (hst : st = ' ' ∨ st = 'x' ∨ st = 'X')
    (hn : (tail.dropWhile goReSpace).contains '\n' = false) :
    goParseCheckbox ('-' :: ' ' :: '[' :: st :: ']' :: tail) =
      some (decide (st = 'x' ∨ st = 'X'), tail.dropWhile goReSpace) := by
  unfold goParseCheckbox
  rw [List.dropWhile_cons_of_neg (by decide)]
  show (if goReSpace ' ' = true ∧ (st = ' ' ∨ st = 'x' ∨ st = 'X') then
      if (tail.dropWhile goReSpace).contains '\n' = true then none
      else some (decide (st = 'x' ∨ st = 'X'), tail.dropWhile goReSpace)
    else none) = _
  rw [if_pos ⟨by decide, hst⟩, if_neg (by simp only [hn]; decide)]

theorem goParseCheckbox_no_newline (cs : List Char) (d : Bool)
    (rest : List Char) (h : goParseCheckbox cs = some (d, rest)) :
    ('\n' : Char) ∉ rest := by
  unfold goParseCheckbox at h
  split at h
  · next c st tail =>
    split at h
    · dsimp only at h
      split at h
      · exact absurd h (by simp)
      · next hcon =>
        rw [Option.some.injEq, Prod.mk.injEq] at h
        intro hmem
        rw [← h.2] at hmem
        exact hcon (List.elem_iff.2 hmem)
    · exact absurd h (by simp)
  · exact absurd h (by simp)

theorem parseTask_inv (line filePath : String) (n : Int) (noteDate : Date)
    (t : Task) (hp : parseTask line filePath n noteDate = some t) :
    ∃ done rest, goParseCheckbox line.data = some (done, rest) ∧
      t = { description := String.mk (goTrimSpace (removeMarker checkChar
              (removeMarker calChar (removeTags rest)))),
            done := done, tags := findTags rest,
            dueDate := if (markerDate calChar rest).isZero then noteDate
              else markerDate calChar rest,
            completionDate := markerDate checkChar rest,
            filePath := filePath, lineNumber := n, rawLine := line } := by
  unfold parseTask at hp
  split at hp
  · exact absurd hp (by simp)
  · next done rest heq =>
    refine ⟨done, rest, heq, ?_⟩
    dsimp only at hp
    rw [Option.some.injEq] at hp
    exact hp.symm

theorem markerDate_props (mk : Char) (rest : List Char) :
    markerDate mk rest = Date.zero ∨
      (validYMD (markerDate mk rest) = true ∧
        (markerDate mk rest).year ≤ 9999) := by
  unfold markerDate
  cases hfm : findMarker mk rest with
  | none => exact Or.inl rfl
  | some ds =>
    show (match goParseDate ds with
      | some d => d
      | none => Date.zero) = Date.zero ∨
      (validYMD (match goParseDate ds with
        | some d => d
        | none => Date.zero) = true ∧
      (match goParseDate ds with
        | some d => d
        | none => Date.zero).year ≤ 9999)
    cases hgp : goParseDate ds with
    | none => exact Or.inl rfl
    | some d => exact Or.inr (goParseDate_valid ds d hgp)

theorem fmt_chars_ne (dt : Date) (c : Char) (hc : c ∈ fmtDateChars dt) :
    c ≠ '#' ∧ c ≠ calChar ∧ c ≠ checkChar ∧ c ≠ '\n' ∧ c ≠ ' ' := by
  obtain ⟨h1, h2, h3, h4, h5⟩ := fmt_not_special dt c hc
  refine ⟨h1, h2, h3, ?_, ?_⟩
  · intro he; subst he; exact absurd h4 (by decide)
  · intro he; subst he; exact absurd h4 (by decide)

theorem markerSec_no_hash (mk : Char) (hmk : mk ≠ '#') (dt : Date) :
    ('#' : Char) ∉ (' ' :: mk :: ' ' :: fmtDateChars dt) := by
  intro h
  rcases markerSec_chars mk dt '#' h with h1 | h1 | h1
  · exact absurd h1 (by decide)
  · exact hmk h1.symm
  · exact (fmt_chars_ne dt '#' h1).1 rfl

theorem cal_notin_markerSec_check (dt : Date) :
    calChar ∉ (' ' :: checkChar :: ' ' :: fmtDateChars dt) := by
  intro h
  rcases markerSec_chars checkChar dt calChar h with h1 | h1 | h1
  · exact absurd h1 (by decide)
  · exact absurd h1 (by decide)
  · exact (fmt_chars_ne dt calChar h1).2.1 rfl

theorem check_notin_markerSec_cal (dt : Date) :
    checkChar ∉ (' ' :: calChar :: ' ' :: fmtDateChars dt) := by
  intro h
  rcases markerSec_chars calChar dt checkChar h with h1 | h1 | h1
  · exact absurd h1 (by decide)
  · exact absurd h1 (by decide)
  · exact (fmt_chars_ne dt checkChar h1).2.2.1 rfl

theorem newline_notin_markerSec (mk : Char) (hmk : mk ≠ '\n') (dt : Date) :
    ('\n' : Char) ∉ (' ' :: mk :: ' ' :: fmtDateChars dt) := by
  intro h
  rcases markerSec_chars mk dt '\n' h with h1 | h1 | h1
  · exact absurd h1 (by decide)
  · exact hmk h1.symm
  · exact (fmt_chars_ne dt '\n' h1).2.2.2.1 rfl

theorem tagBoundary_markers (D C : List Char)
    (hD : D = [] ∨ ∃ dd, D = ' ' :: calChar :: ' ' :: fmtDateChars dd)
    (hC : C = [] ∨ ∃ cd, C = ' ' :: checkChar :: ' ' :: fmtDateChars cd) :
    tagBoundary (D ++ C) := by
  rcases hD with rfl | ⟨dd, rfl⟩
  · rcases hC with rfl | ⟨cd, rfl⟩
    · exact trivial
    · exact ⟨by decide, by decide⟩
  · exact ⟨by decide, by decide⟩

theorem no_hash_markers (D C : List Char)
    (hD : D = [] ∨ ∃ dd, D = ' ' :: calChar :: ' ' :: fmtDateChars dd)
    (hC : C = [] ∨ ∃ cd, C = ' ' :: checkChar :: ' ' :: fmtDateChars cd) :
    ('#' : Char) ∉ D ++ C := by
  intro h
  rcases List.mem_append.1 h with h | h
  · rcases hD with rfl | ⟨dd, rfl⟩
    · exact absurd h (List.not_mem_nil _)
    · exact markerSec_no_hash calChar (by decide) dd h
  · rcases hC with rfl | ⟨cd, rfl⟩
    · exact absurd h (List.not_mem_nil _)
    · exact markerSec_no_hash checkChar (by decide) cd h

theorem no_newline_markers (D C : List Char)
    (hD : D = [] ∨ ∃ dd, D = ' ' :: calChar :: ' ' :: fmtDateChars dd)
    (hC : C = [] ∨ ∃ cd, C = ' ' :: checkChar :: ' ' :: fmtDateChars cd) :
    ('\n' : Char) ∉ D ++ C := by
  intro h
  rcases List.mem_append.1 h with h | h
  · rcases hD with rfl | ⟨dd, rfl⟩
    · exact absurd h (List.not_mem_nil _)
    · exact newline_notin_markerSec calChar (by decide) dd h
  · rcases hC with rfl | ⟨cd, rfl⟩
    · exact absurd h (List.not_mem_nil _)
    · exact newline_notin_markerSec checkChar (by decide) cd h

theorem findMarker_pre_at (mk : Char) (pre : List Char) (dt : Date)
    (s : List Char) (hpre : mk ∉ pre) (hmk : mk ≠ ' ') :
    findMarker mk (pre ++ (' ' :: mk :: ' ' :: (fmtDateChars dt ++ s))) =
      some (fmtDateChars dt) := by
  rw [findMarker_append_no_mk mk pre _ hpre]
  show findMarker mk ([' '] ++ (mk :: ' ' :: (fmtDateChars dt ++ s))) = _
  rw [findMarker_append_no_mk mk [' '] _
    (fun h => hmk (List.mem_singleton.1 h))]
  exact findMarker_at_marker mk dt s

theorem findTags_encoded (descD m : List Char) (tags : List String)
    (hd : ('#' : Char) ∉ descD) (hw : ∀ tg ∈ tags, wfTag tg.data = true)
    (hb : tagBoundary m) (hm : ('#' : Char) ∉ m) :
    findTags (descD ++
      ((tags.map (fun tg => ' ' :: tg.data)).flatten ++ m)) = tags := by
  rw [findTags_append_no_hash descD _ hd, findTags_tagsec tags m hw hb,
    findTags_no_hash m hm, List.append_nil]

theorem removeTags_encoded (descD m : List Char) (tags : List String)
    (hd : ('#' : Char) ∉ descD) (hw : ∀ tg ∈ tags, wfTag tg.data = true)
    (hb : tagBoundary m) (hm : ('#' : Char) ∉ m) :
    removeTags (descD ++
      ((tags.map (fun tg => ' ' :: tg.data)).flatten ++ m)) =
      descD ++ (List.replicate tags.length ' ' ++ m) := by
  rw [removeTags_append_no_hash descD _ hd, removeTags_tagsec tags m hw hb,
    removeTags_no_hash m hm]

theorem notin_desc_spaces (x : Char) (descD : List Char) (k : Nat)
    (sp : List Char) (hx : x ∉ descD) (hxs : x ≠ ' ')
    (hsp : ∀ c ∈ sp, c = ' ') :
    x ∉ descD ++ (List.replicate k ' ' ++ sp) := by
  intro h
  rcases List.mem_append.1 h with h | h
  · exact hx h
  · rcases List.mem_append.1 h with h | h
    · exact hxs (List.eq_of_mem_replicate h)
    · exact hxs (hsp x h)

theorem spaces_uni (k : Nat) (sp : List Char) (hsp : ∀ c ∈ sp, c = ' ') :
    ∀ c ∈ List.replicate k ' ' ++ sp, goUnicodeSpace c = true := by
  intro c h
  rcases List.mem_append.1 h with h | h
  · rw [List.eq_of_mem_replicate h]; decide
  · rw [hsp c h]; decide

theorem desc_after_removals (descD : List Char) (k : Nat) (D C : List Char)
    (hd2 : calChar ∉ descD) (hd3 : checkChar ∉ descD)
    (hD : D = [] ∨ ∃ dd, D = ' ' :: calChar :: ' ' :: fmtDateChars dd)
    (hC : C = [] ∨ ∃ cd, C = ' ' :: checkChar :: ' ' :: fmtDateChars cd) :
    goTrimSpace (removeMarker checkChar (removeMarker calChar
      (descD ++ (List.replicate k ' ' ++ (D ++ C))))) = goTrimSpace descD := by
  have hcalC : calChar ∉ C := by
    rcases hC with rfl | ⟨cd, rfl⟩
    · exact List.not_mem_nil _
    · exact cal_notin_markerSec_check cd
  rcases hD with rfl | ⟨dd, rfl⟩
  · rw [List.nil_append]
    have hnc : calChar ∉ descD ++ (List.replicate k ' ' ++ C) := by
      intro h
      rcases List.mem_append.1 h with h | h
      · exact hd2 h
      · rcases List.mem_append.1 h with h | h
        · exact absurd (List.eq_of_mem_replicate h) (by decide)
        · exact hcalC h
    rw [removeMarker_no_mk _ _ hnc]
    rcases hC with rfl | ⟨cd, rfl⟩
    · have hnk : checkChar ∉ descD ++ (List.replicate k ' ' ++ ([] : List Char)) :=
        notin_desc_spaces checkChar descD k [] hd3 (by decide)
          (fun c hc => absurd hc (List.not_mem_nil c))
      rw [removeMarker_no_mk _ _ hnk, List.append_nil]
      exact goTrimSpace_append_spaces descD _
        (fun c hc => by rw [List.eq_of_mem_replicate hc]; decide)
    · have hre : descD ++ (List.replicate k ' ' ++
          (' ' :: checkChar :: ' ' :: fmtDateChars cd)) =
          (descD ++ (List.replicate k ' ' ++ [' '])) ++
          (checkChar :: ' ' :: (fmtDateChars cd ++ [])) := by
        simp [List.append_assoc]
      rw [hre, removeMarker_append_no_mk checkChar _ _
        (notin_desc_spaces checkChar descD k [' '] hd3 (by decide)
          (fun c hc => List.mem_singleton.1 hc))]
      have hm := removeMarker_at_marker checkChar cd []
      rw [hm, show removeMarker checkChar ([] : List Char) = [] from rfl,
        List.append_nil]
      exact goTrimSpace_append_spaces descD _
        (spaces_uni k [' '] (fun c hc => List.mem_singleton.1 hc))
  · have hre1 : descD ++ (List.replicate k ' ' ++
        ((' ' :: calChar :: ' ' :: fmtDateChars dd) ++ C)) =
        (descD ++ (List.replicate k ' ' ++ [' '])) ++
        (calChar :: ' ' :: (fmtDateChars dd ++ C)) := by
      simp [List.append_assoc]
    rw [hre1, removeMarker_append_no_mk calChar _ _
      (notin_desc_spaces calChar descD k [' '] hd2 (by decide)
        (fun c hc => List.mem_singleton.1 hc)),
      removeMarker_at_marker calChar dd C, removeMarker_no_mk _ _ hcalC]
    rcases hC with rfl | ⟨cd, rfl⟩
    · have hnk : checkChar ∉ descD ++ (List.replicate k ' ' ++ [' ']) :=
        notin_desc_spaces checkChar descD k [' '] hd3 (by decide)
          (fun c hc => List.mem_singleton.1 hc)
      rw [List.append_nil, removeMarker_no_mk _ _ hnk]
      exact goTrimSpace_append_spaces descD _
        (spaces_uni k [' '] (fun c hc => List.mem_singleton.1 hc))
    · have hre2 : (descD ++ (List.replicate k ' ' ++ [' '])) ++
          (' ' :: checkChar :: ' ' :: fmtDateChars cd) =
          (descD ++ (List.replicate k ' ' ++ [' ', ' '])) ++
          (checkChar :: ' ' :: (fmtDateChars cd ++ [])) := by
        simp [List.append_assoc]
      rw [hre2, removeMarker_append_no_mk checkChar _ _
        (notin_desc_spaces checkChar descD k [' ', ' '] hd3 (by decide)
          (fun c hc => by
            rcases List.mem_cons.1 hc with h | h
            · exact h
            · exact List.mem_singleton.1 h))]
      rw [removeMarker_at_marker checkChar cd [],
        show removeMarker checkChar ([] : List Char) = [] from rfl,
        List.append_nil]
      exact goTrimSpace_append_spaces descD _
        (spaces_uni k [' ', ' '] (fun c hc => by
          rcases List.mem_cons.1 hc with h | h
          · exact h
          · exact List.mem_singleton.1 h))

theorem goParseCheckbox_encode_prefix (d : Bool) (R : List Char)
    (hn : ('\n' : Char) ∉ R) :
    goParseCheckbox ((if d then "- [x] " else "- [ ] ") ++ String.mk R).data =
      some (d, R.dropWhile goReSpace) := by
  have hnd : ((' ' :: R).dropWhile goReSpace).contains '\n' = false := by
    rw [List.dropWhile_cons_of_pos (by decide)]
    exact contains_eq_false _ _
      (fun hm => hn ((List.dropWhile_sublist _).subset hm))
  cases d
  · show goParseCheckbox ('-' :: ' ' :: '[' :: ' ' :: ']' :: (' ' :: R)) = _
    rw [goParseCheckbox_shape ' ' (' ' :: R) (Or.inl rfl) hnd]
    rw [List.dropWhile_cons_of_pos (by decide)]
    rfl
  · show goParseCheckbox ('-' :: ' ' :: '[' :: 'x' :: ']' :: (' ' :: R)) = _
    rw [goParseCheckbox_shape 'x' (' ' :: R) (Or.inr (Or.inl rfl)) hnd]
    rw [List.dropWhile_cons_of_pos (by decide)]
    rfl

theorem encodeTask_data (t : Task) :
    (encodeTask t).data = (if t.done then "- [x] " else "- [ ] ").data ++
      (t.description.data ++
      ((t.tags.map (fun tg => ' ' :: tg.data)).flatten ++
      ((if t.dueDate.isZero then ([] : List Char)
        else ' ' :: calChar :: ' ' :: fmtDateChars t.dueDate) ++
      (if t.completionDate.isZero then ([] : List Char)
        else ' ' :: checkChar :: ' ' :: fmtDateChars t.completionDate)))) := by
  have hD : (if t.dueDate.isZero then ("" : String)
      else " 📅 " ++ fmtDate t.dueDate).data =
      (if t.dueDate.isZero then ([] : List Char)
      else ' ' :: calChar :: ' ' :: fmtDateChars t.dueDate) := by
    by_cases hz : t.dueDate.isZero
    · rw [if_pos hz, if_pos hz]
    · rw [if_neg hz, if_neg hz]
      rfl
  have hC : (if t.completionDate.isZero then ("" : String)
      else " ✅ " ++ fmtDate t.completionDate).data =
      (if t.completionDate.isZero then ([] : List Char)
      else ' ' :: checkChar :: ' ' :: fmtDateChars t.completionDate) := by
    by_cases hz : t.completionDate.isZero
    · rw [if_pos hz, if_pos hz]
    · rw [if_neg hz, if_neg hz]
      rfl
  show ((if t.done then "- [x] " else "- [ ] ") ++ t.description ++
    String.join (t.tags.map (fun tag => " " ++ tag)) ++
    (if t.dueDate.isZero then "" else " 📅 " ++ fmtDate t.dueDate) ++
    (if t.completionDate.isZero then ""
      else " ✅ " ++ fmtDate t.completionDate)).data = _
  rw [String.data_append, String.data_append, String.data_append,
    String.data_append, tagsec_data, hD, hC, List.append_assoc,
    List.append_assoc, List.append_assoc]

theorem goParseCheckbox_rest_sublist (cs : List Char) (d : Bool)
    (rest : List Char) (h : goParseCheckbox cs = some (d, rest)) :
    List.Sublist rest cs := by
  unfold goParseCheckbox at h
  split at h
  · next c st tail heq =>
    split at h
    · dsimp only at h
      split at h
      · exact absurd h (by simp)
      · simp only [Option.some.injEq, Prod.mk.injEq] at h
        have h1 : List.Sublist rest tail := by
          rw [← h.2]
          exact List.dropWhile_sublist goReSpace
        have h2 : List.Sublist tail (cs.dropWhile goReSpace) := by
          rw [heq]
          exact ((((List.sublist_cons_self _ _).trans
            (List.sublist_cons_self _ _)).trans
            (List.sublist_cons_self _ _)).trans
            (List.sublist_cons_self _ _)).trans
            (List.sublist_cons_self _ _)
        exact (h1.trans h2).trans (List.dropWhile_sublist goReSpace)
    · exact absurd h (by simp)
  · exact absurd h (by simp)

theorem findMarker_eq_none (mk : Char) (cs : List Char) (h : mk ∉ cs) :
    findMarker mk cs = none := by
  induction cs with
  | nil => rfl
  | cons c rest ih =>
    rw [findMarker]
    rw [if_neg (fun hc => h (by rw [← hc]; exact List.mem_cons_self c rest))]
    exact ih (fun hm => h (List.mem_cons_of_mem _ hm))

/-- C5 counterexample: `ParseTask` extracts the `✅` completion marker
regardless of the checkbox state, so the unchecked line
`- [ ] x ✅ 2026-01-01` parses with `done = false` and a set (non-zero)
completion date, violating the claimed invariant. -/
theorem c5_counterexample :
    (parseTask "- [ ] x ✅ 2026-01-01" "f" 1 ⟨2026, 1, 2⟩).map
        (fun t => (t.done, t.completionDate, t.completionDate.isZero)) =
      some (false, ⟨2026, 1, 1⟩, false) := by
  decide

/-- C5 amended: a parsed record's completion date is extracted from the
line's `✅` marker independently of the checkbox state; consequently the
invariant `done = false → completion_date unset` holds exactly for the
lines carrying no `✅` rune (in particular every line the program itself
writes for an open task), but not for arbitrary accepted lines. -/
theorem c5_no_marker_no_completion (line filePath : String) (n : Int)
    (noteDate : Date) (t : Task)
    (hp : parseTask line filePath n noteDate = some t)
    (hns : checkChar ∉ line.data) :
    t.completionDate = Date.zero := by
  unfold parseTask at hp
  cases hcb : goParseCheckbox line.data with
  | none => rw [hcb] at hp; exact absurd hp (by simp)
  | some pr =>
    obtain ⟨dn, rest⟩ := pr
    rw [hcb] at hp
    simp only [Option.some.injEq] at hp
    have hsub := goParseCheckbox_rest_sublist line.data dn rest hcb
    have hnr : checkChar ∉ rest := fun hm => hns (hsub.subset hm)
    rw [findMarker_eq_none checkChar rest hnr] at hp
    rw [← hp]

/-- Witness for C5 at a concrete line with no `✅` rune. -/
theorem c5_witness :
    (⟨"a", false, ["#t"], ⟨2026, 1, 2⟩, Date.zero, "f", 1,
      "- [ ] a #t"⟩ : Task).completionDate = Date.zero :=
  c5_no_marker_no_completion "- [ ] a #t" "f" 1 ⟨2026, 1, 2⟩ _
    (by decide) (by decide)

/-- C10: every string `findTags` extracts is a full match of the tag
grammar `#` + word run + optional `/`-separated word runs (so extraction
is by maximal munch), and on concrete lines: a `#` directly after a word
character still starts a tag (`- [ ] pay bill#urgent` yields tag
`#urgent` and description `pay bill`), multi-segment tags are taken
whole, and duplicate occurrences are kept in left-to-right order. -/
theorem c10_tag_extraction :
    (∀ (cs : List Char), ∀ s ∈ findTags cs, wfTag s.data = true) ∧
    (parseTask "- [ ] pay bill#urgent" "f" 1 ⟨2026, 1, 2⟩).map
        (fun t => (t.description, t.tags)) = some ("pay bill", ["#urgent"]) ∧
    findTags ("#a/b1 x #a/b1 #c" : String).data = ["#a/b1", "#a/b1", "#c"] ∧
    findTags ("x#y" : String).data = ["#y"] :=
  ⟨fun cs => findTags_wf cs, by decide, by decide, by decide⟩

/-- Witness for C10: the extracted tag of a concrete line is a
well-formed tag token. -/
theorem c10_witness : wfTag ("#a/b1" : String).data = true :=
  c10_tag_extraction.1 (" #a/b1" : String).data "#a/b1" (by decide)

/-- C1 counterexample: with section heading `## H`, the shallower heading
`# Top` (one `#` against two) does NOT close the section — scanning
`["## H", "- [ ] a #t", "# Top", "- [ ] b #t"]` also yields the record
on line 4, which lies beyond the first same-or-shallower heading (line
3), refuting the claimed scope interval at this concrete input. -/
theorem c1_counterexample :
    (sectionLevel "# Top").length < (sectionLevel "## H").length ∧
    ¬(∀ t ∈ parseFileLines "f" "## H" ⟨2026, 1, 2⟩
        ["## H", "- [ ] a #t", "# Top", "- [ ] b #t"],
      1 < t.lineNumber ∧ t.lineNumber < 3) := by
  decide

/-- C1 amended: for a non-empty section heading, `ParseFile` yields
exactly the records of in-scope lines, where the scope flag starts off,
turns on at every line trimming to the heading, and turns off only at a
closing line — a line whose trimmed form starts with the heading's `#`
run followed by a space but not by another `#`, i.e. a heading at
exactly the same depth (shallower headings do not close the section,
deeper lines stay in scope, and a later occurrence of the heading
reopens it); the heading lines and closing lines themselves yield no
record. -/
theorem c1_section_scope (filePath heading : String) (noteDate : Date)
    (lines : List String) (hne : heading ≠ "") :
    parseFileLines filePath heading noteDate lines =
      (List.range lines.length).filterMap (fun i =>
        if scopeAfter heading false (lines.take i) = true ∧
            goTrimStr (lines.getD i "") ≠ heading ∧
            closesLine heading (goTrimStr (lines.getD i "")) = false
        then parseTask (lines.getD i "") filePath (1 + (i : Int)) noteDate
        else none) := by
  have hb : (heading == "") = false := by
    rw [beq_eq_false_iff_ne]
    exact hne
  rw [parseFileLines, hb]
  exact parseFileGo_eq_filterMap filePath heading noteDate lines 1 false hne

/-- Witness for C1 at a concrete file: the scope characterization
evaluated on a two-line section. -/
theorem c1_witness :
    parseFileLines "f" "## H" ⟨2026, 1, 2⟩ ["## H", "- [ ] a #t"] =
      (List.range 2).filterMap (fun i =>
        if scopeAfter "## H" false ((["## H", "- [ ] a #t"] : List String).take i)
              = true ∧
            goTrimStr ((["## H", "- [ ] a #t"] : List String).getD i "") ≠
              "## H" ∧
            closesLine "## H"
              (goTrimStr ((["## H", "- [ ] a #t"] : List String).getD i "")) =
              false
        then parseTask ((["## H", "- [ ] a #t"] : List String).getD i "") "f"
          (1 + (i : Int)) ⟨2026, 1, 2⟩
        else none) :=
  c1_section_scope "f" "## H" ⟨2026, 1, 2⟩ ["## H", "- [ ] a #t"] (by decide)

/-- Witness for C8 at a concrete input: deleting line 2 of a three-line
file keeps line 1 in place and shifts line 3 up. -/
theorem c8_witness :
    deleteTaskLines ["l1", "l2", "l3"] exTaskB = some ["l1", "l3"] ∧
    (["l1", "l3"] : List String)[1]? = (["l1", "l2", "l3"] : List String)[2]? :=
  ⟨by decide,
   ((c8_single_line_frame ["l1", "l2", "l3"] exTaskB ⟨2026, 1, 1⟩ "n").2.2
      ["l1", "l3"] (by decide)).2.2 1 (by decide)⟩

/-- C4 (amended): re-decoding the re-encoded line of a parsed task yields
field-equal description, done flag, tags, due date and completion date,
provided the description contains no `#`, `📅` or `✅` rune (the original
claim without these provisos is refuted by `c4_counterexample`) and the
note date is the zero date or a calendar-valid date with a four-digit
year, the decode being run with the same note date. -/
theorem c4_roundtrip (line filePath : String) (n : Int) (noteDate : Date)
    (t : Task) (fp2 : String) (n2 : Int)
    (hp : parseTask line filePath n noteDate = some t)
    (hnote : noteDate = Date.zero ∨
      (validYMD noteDate = true ∧ noteDate.year ≤ 9999))
    (hd1 : ('#' : Char) ∉ t.description.data)
    (hd2 : calChar ∉ t.description.data)
    (hd3 : checkChar ∉ t.description.data) :
    ∃ t2, parseTask (encodeTask t) fp2 n2 noteDate = some t2 ∧
      t2.description = t.description ∧ t2.done = t.done ∧
      t2.tags = t.tags ∧ t2.dueDate = t.dueDate ∧
      t2.completionDate = t.completionDate := by
  obtain ⟨done, rest, hcb, ht⟩ := parseTask_inv line filePath n noteDate t hp
  have hdesc : t.description = String.mk (goTrimSpace (removeMarker checkChar
      (removeMarker calChar (removeTags rest)))) := by rw [ht]
  have htags : t.tags = findTags rest := by rw [ht]
  have hdue_t : t.dueDate = if (markerDate calChar rest).isZero then noteDate
      else markerDate calChar rest := by rw [ht]
  have hcomp_t : t.completionDate = markerDate checkChar rest := by rw [ht]
  have hcompExp : t.completionDate = Date.zero ∨
      (validYMD t.completionDate = true ∧ t.completionDate.year ≤ 9999) := by
    rw [hcomp_t]
    exact markerDate_props checkChar rest
  have hdueF1 : t.dueDate.isZero = true → t.dueDate = noteDate := by
    intro hz
    by_cases hmz : (markerDate calChar rest).isZero = true
    · rw [hdue_t, if_pos hmz]
    · rw [hdue_t, if_neg hmz] at hz
      exact absurd hz hmz
  have hdueF2 : t.dueDate.isZero = false →
      validYMD t.dueDate = true ∧ t.dueDate.year ≤ 9999 := by
    intro hzf
    by_cases hmz : (markerDate calChar rest).isZero = true
    · rw [hdue_t, if_pos hmz] at hzf ⊢
      rcases hnote with hn | hn
      · rw [hn] at hzf
        exact absurd hzf (by decide)
      · exact hn
    · rw [hdue_t, if_neg hmz]
      rcases markerDate_props calChar rest with h | h
      · refine absurd ?_ hmz
        rw [h]
        decide
      · exact h
  have hwf : ∀ tg ∈ t.tags, wfTag tg.data = true := by
    rw [htags]
    exact findTags_wf rest
  have hnlrest : ('\n' : Char) ∉ rest :=
    goParseCheckbox_no_newline line.data done rest hcb
  have hdsub : List.Sublist t.description.data rest := by
    rw [hdesc]
    exact (goTrimSpace_sublist _).trans
      ((removeMarker_sublist checkChar _).trans
        ((removeMarker_sublist calChar _).trans (removeTags_sublist rest)))
  have hnldesc : ('\n' : Char) ∉ t.description.data :=
    fun h => hnlrest (hdsub.subset h)
  set D : List Char := if t.dueDate.isZero then ([] : List Char)
    else ' ' :: calChar :: ' ' :: fmtDateChars t.dueDate with hDdef
  set C : List Char := if t.completionDate.isZero then ([] : List Char)
    else ' ' :: checkChar :: ' ' :: fmtDateChars t.completionDate with hCdef
  have hDshape : D = [] ∨
      ∃ dd, D = ' ' :: calChar :: ' ' :: fmtDateChars dd := by
    rw [hDdef]
    by_cases hz : t.dueDate.isZero = true
    · rw [if_pos hz]
      exact Or.inl rfl
    · rw [if_neg hz]
      exact Or.inr ⟨t.dueDate, rfl⟩
  have hCshape : C = [] ∨
      ∃ cd, C = ' ' :: checkChar :: ' ' :: fmtDateChars cd := by
    rw [hCdef]
    by_cases hz : t.completionDate.isZero = true
    · rw [if_pos hz]
      exact Or.inl rfl
    · rw [if_neg hz]
      exact Or.inr ⟨t.completionDate, rfl⟩
  have hcal_notin_C : calChar ∉ C := by
    rcases hCshape with h | ⟨cd, h⟩
    · rw [h]; exact List.not_mem_nil _
    · rw [h]; exact cal_notin_markerSec_check cd
  have hchk_notin_D : checkChar ∉ D := by
    rcases hDshape with h | ⟨dd, h⟩
    · rw [h]; exact List.not_mem_nil _
    · rw [h]; exact check_notin_markerSec_cal dd
  have hcal_notin_tagsec :
      calChar ∉ (t.tags.map (fun tg => ' ' :: tg.data)).flatten :=
    fun h => (tagsec_chars t.tags hwf calChar h).1 rfl
  have hchk_notin_tagsec :
      checkChar ∉ (t.tags.map (fun tg => ' ' :: tg.data)).flatten :=
    fun h => (tagsec_chars t.tags hwf checkChar h).2.1 rfl
  set R : List Char := t.description.data ++
    ((t.tags.map (fun tg => ' ' :: tg.data)).flatten ++ (D ++ C)) with hRdef
  have hnlR : ('\n' : Char) ∉ R := by
    rw [hRdef]
    intro h
    rcases List.mem_append.1 h with h | h
    · exact hnldesc h
    · rcases List.mem_append.1 h with h | h
      · exact (tagsec_chars t.tags hwf '\n' h).2.2 rfl
      · exact no_newline_markers D C hDshape hCshape h
  have hed : (encodeTask t).data =
      ((if t.done then "- [x] " else "- [ ] ") ++ String.mk R).data := by
    rw [encodeTask_data, hRdef]
    rfl
  have hcb2 : goParseCheckbox (encodeTask t).data =
      some (t.done, R.dropWhile goReSpace) := by
    rw [hed]
    exact goParseCheckbox_encode_prefix t.done R hnlR
  set rest2 : List Char := R.dropWhile goReSpace with hrest2
  set sp : List Char := R.takeWhile goReSpace with hspdef
  have hsplit : sp ++ rest2 = R :=
    List.takeWhile_append_dropWhile goReSpace R
  have hspmem : ∀ c ∈ sp, goReSpace c = true := fun c hc =>
    List.mem_takeWhile_imp hc
  have hsp_nohash : ('#' : Char) ∉ sp :=
    fun h => (goReSpace_ne '#' (hspmem _ h)).1 rfl
  have hsp_nocal : calChar ∉ sp :=
    fun h => (goReSpace_ne calChar (hspmem _ h)).2.1 rfl
  have hsp_nochk : checkChar ∉ sp :=
    fun h => (goReSpace_ne checkChar (hspmem _ h)).2.2 rfl
  have hpt2 : parseTask (encodeTask t) fp2 n2 noteDate = some
      { description := String.mk (goTrimSpace (removeMarker checkChar
          (removeMarker calChar (removeTags rest2)))),
        done := t.done, tags := findTags rest2,
        dueDate := if (markerDate calChar rest2).isZero then noteDate
          else markerDate calChar rest2,
        completionDate := markerDate checkChar rest2,
        filePath := fp2, lineNumber := n2, rawLine := encodeTask t } := by
    unfold parseTask
    rw [hcb2]
    rfl
  have htags2 : findTags rest2 = t.tags := by
    have h1 : findTags R = t.tags := by
      rw [hRdef]
      exact findTags_encoded t.description.data _ t.tags hd1 hwf
        (tagBoundary_markers D C hDshape hCshape)
        (no_hash_markers D C hDshape hCshape)
    rw [← hsplit, findTags_append_no_hash sp rest2 hsp_nohash] at h1
    exact h1
  have hfm_due : findMarker calChar rest2 = findMarker calChar R := by
    conv_rhs => rw [← hsplit]
    rw [findMarker_append_no_mk calChar sp rest2 hsp_nocal]
  have hfm_chk : findMarker checkChar rest2 = findMarker checkChar R := by
    conv_rhs => rw [← hsplit]
    rw [findMarker_append_no_mk checkChar sp rest2 hsp_nochk]
  have hdueval : markerDate calChar rest2 =
      (if t.dueDate.isZero then Date.zero else t.dueDate) := by
    unfold markerDate
    rw [hfm_due, hRdef]
    by_cases hz : t.dueDate.isZero = true
    · rw [if_pos hz]
      have hD0 : D = [] := by rw [hDdef, if_pos hz]
      rw [hD0, List.nil_append]
      rw [findMarker_append_no_mk calChar _ _ hd2,
        findMarker_append_no_mk calChar _ _ hcal_notin_tagsec,
        findMarker_eq_none calChar C hcal_notin_C]
    · rw [if_neg hz]
      have hD1 : D = ' ' :: calChar :: ' ' :: fmtDateChars t.dueDate := by
        rw [hDdef, if_neg hz]
      rw [hD1]
      have hre : t.description.data ++
          ((t.tags.map (fun tg => ' ' :: tg.data)).flatten ++
            ((' ' :: calChar :: ' ' :: fmtDateChars t.dueDate) ++ C)) =
          (t.description.data ++
            (t.tags.map (fun tg => ' ' :: tg.data)).flatten) ++
          (' ' :: calChar :: ' ' :: (fmtDateChars t.dueDate ++ C)) := by
        simp [List.append_assoc]
      rw [hre, findMarker_pre_at calChar _ t.dueDate C
        (fun h => by
          rcases List.mem_append.1 h with h | h
          · exact hd2 h
          · exact hcal_notin_tagsec h) (by decide)]
      show (match goParseDate (fmtDateChars t.dueDate) with
        | some d => d
        | none => Date.zero) = t.dueDate
      have hval := hdueF2 (Bool.eq_false_iff.mpr hz)
      rw [goParseDate_fmt t.dueDate hval.1 hval.2]
  have hcompval : markerDate checkChar rest2 = t.completionDate := by
    unfold markerDate
    rw [hfm_chk, hRdef]
    by_cases hz : t.completionDate.isZero = true
    · have hzz : t.completionDate = Date.zero := by
        simpa [Date.isZero] using hz
      have hC0 : C = [] := by rw [hCdef, if_pos hz]
      rw [hC0, List.append_nil]
      rw [findMarker_append_no_mk checkChar _ _ hd3,
        findMarker_append_no_mk checkChar _ _ hchk_notin_tagsec,
        findMarker_eq_none checkChar D hchk_notin_D]
      exact hzz.symm
    · have hC1 : C = ' ' :: checkChar :: ' ' :: fmtDateChars t.completionDate := by
        rw [hCdef, if_neg hz]
      rw [hC1]
      have hre : t.description.data ++
          ((t.tags.map (fun tg => ' ' :: tg.data)).flatten ++
            (D ++ (' ' :: checkChar :: ' ' :: fmtDateChars t.completionDate))) =
          (t.description.data ++
            ((t.tags.map (fun tg => ' ' :: tg.data)).flatten ++ D)) ++
          (' ' :: checkChar :: ' ' :: (fmtDateChars t.completionDate ++ [])) := by
        simp [List.append_assoc]
      rw [hre, findMarker_pre_at checkChar _ t.completionDate []
        (fun h => by
          rcases List.mem_append.1 h with h | h
          · exact hd3 h
          · rcases List.mem_append.1 h with h | h
            · exact hchk_notin_tagsec h
            · exact hchk_notin_D h) (by decide)]
      show (match goParseDate (fmtDateChars t.completionDate) with
        | some d => d
        | none => Date.zero) = t.completionDate
      have hval : validYMD t.completionDate = true ∧
          t.completionDate.year ≤ 9999 := by
        rcases hcompExp with h | h
        · exact absurd (by rw [h]; decide : t.completionDate.isZero = true) hz
        · exact h
      rw [goParseDate_fmt t.completionDate hval.1 hval.2]
  have hdesc2 : goTrimSpace (removeMarker checkChar (removeMarker calChar
      (removeTags rest2))) = t.description.data := by
    have hA : removeTags R = t.description.data ++
        (List.replicate t.tags.length ' ' ++ (D ++ C)) := by
      rw [hRdef]
      exact removeTags_encoded _ _ t.tags hd1 hwf
        (tagBoundary_markers D C hDshape hCshape)
        (no_hash_markers D C hDshape hCshape)
    have hB : removeTags R = sp ++ removeTags rest2 := by
      conv_lhs => rw [← hsplit]
      exact removeTags_append_no_hash sp rest2 hsp_nohash
    have hCc : removeMarker checkChar (removeMarker calChar (removeTags R)) =
        sp ++ removeMarker checkChar (removeMarker calChar
          (removeTags rest2)) := by
      rw [hB, removeMarker_append_no_mk calChar sp _ hsp_nocal,
        removeMarker_append_no_mk checkChar sp _ hsp_nochk]
    have hT : goTrimSpace (removeMarker checkChar (removeMarker calChar
        (removeTags R))) = goTrimSpace t.description.data := by
      rw [hA]
      exact desc_after_removals t.description.data t.tags.length D C
        hd2 hd3 hDshape hCshape
    rw [hCc, goTrimSpace_prepend_spaces sp _
      (fun c hc => goReSpace_uni c (hspmem c hc))] at hT
    rw [hT, hdesc]
    exact goTrimSpace_idem (removeMarker checkChar
      (removeMarker calChar (removeTags rest)))
  refine ⟨_, hpt2, ?_, rfl, ?_, ?_, ?_⟩
  · show String.mk (goTrimSpace (removeMarker checkChar
      (removeMarker calChar (removeTags rest2)))) = t.description
    rw [hdesc2]
  · exact htags2
  · show (if (markerDate calChar rest2).isZero then noteDate
      else markerDate calChar rest2) = t.dueDate
    rw [hdueval]
    by_cases hz : t.dueDate.isZero = true
    · rw [if_pos hz, if_pos (by decide : Date.zero.isZero = true)]
      exact (hdueF1 hz).symm
    · rw [if_neg hz, if_neg hz]
  · exact hcompval

/-- C4 counterexample: the line `- [ ] a#📅 2026-01-01b` decodes with
description `a#b` and no tags; removing the due-date marker glues `a#`
and `b` together, and re-encoding then re-decoding extracts `#b` as a
tag, so the claim's unconditional round-trip fails on the description
and tag fields. -/
theorem c4_counterexample :
    ∃ t t2, parseTask "- [ ] a#📅 2026-01-01b" "f" 1 Date.zero = some t ∧
      parseTask (encodeTask t) "f" 1 Date.zero = some t2 ∧
      ¬(t2.description = t.description ∧ t2.tags = t.tags) := by
  refine ⟨⟨"a#b", false, [], ⟨2026, 1, 1⟩, Date.zero, "f", 1,
      "- [ ] a#📅 2026-01-01b"⟩,
    ⟨"a", false, ["#b"], ⟨2026, 1, 1⟩, Date.zero, "f", 1,
      "- [ ] a#b 📅 2026-01-01"⟩, ?_, ?_, ?_⟩
  · decide
  · decide
  · decide

/-- C4 witness: the amended round-trip theorem applied to a concrete
parsed task with a tag, a due date and a completion date. -/
theorem c4_witness :
    ∃ t2, parseTask (encodeTask exTaskRT) "g" 7 Date.zero = some t2 ∧
      t2.description = exTaskRT.description ∧ t2.done = exTaskRT.done ∧
      t2.tags = exTaskRT.tags ∧ t2.dueDate = exTaskRT.dueDate ∧
      t2.completionDate = exTaskRT.completionDate :=
  c4_roundtrip "- [x] pay bill #work/a 📅 2026-03-01 ✅ 2026-03-02" "f" 3
    Date.zero exTaskRT "g" 7 (by decide) (Or.inl rfl) (by decide) (by decide)
    (by decide)

end ObsidianTasks
